import Mathlib

/-!
Kilo: the terminal viewer of `kilo.c`.

A shallow embedding of the input decoder, the row store, the cursor and
viewport engine, the screen compositor and the termination paths of `kilo.c`,
followed by the properties proved about them.

Conventions of the embedding.

* A C `int` is an unbounded `Int`; signed overflow is undefined in C and is outside
  the model.  The C remainder `%` truncates toward zero and is `cmod`.
* A byte is a `Fin 256`.  A C string (`chars`, `render`) is the list of its
  bytes before the terminating NUL.
* The global `EditorConfig` is passed explicitly as an `editorConfig` value.
* An access to `EditorConfig.row[i]` outside the allocated array has no
  meaning in C; operations that perform one return `none`.
-/

namespace Kilo

/-! ## Constants -/

abbrev Byte := Fin 256

/-- The tab stop, `#define KILO_TAB_STOP 8`. -/
def KILO_TAB_STOP : Int := 8

/-- The macro `#define CTRL_KEY(k) ((k) & 0x1f)`. -/
def CTRL_KEY (k : Nat) : Int := ((k &&& 0x1f : Nat) : Int)

/-- The constants of `enum editorKey`, starting at 1000. -/
def ARROW_LEFT : Int := 1000
def ARROW_RIGHT : Int := 1001
def ARROW_UP : Int := 1002
def ARROW_DOWN : Int := 1003
def DEL_KEY : Int := 1004
def HOME_KEY : Int := 1005
def END_KEY : Int := 1006
def PAGE_UP : Int := 1007
def PAGE_DOWN : Int := 1008

/-- The escape byte `\x1b`. -/
def ESC : Int := 27

/-- C remainder `a % b`, truncating toward zero. -/
def cmod (a b : Int) : Int := Int.tmod a b

/-- Value of a `char` holding byte `b` when converted to `int` (`char` is
signed on the targets of this termios code, so bytes from 128 up are
negative). -/
def charToInt (b : Byte) : Int :=
  if b.val < 128 then (b.val : Int) else (b.val : Int) - 256

/-! ## Input decoder -/

/-- Result of one `read(STDIN_FILENO, &c, 1)` in raw mode (`VMIN = 0`,
`VTIME = 1`). -/
inductive ReadResult where
  /-- The call returned 1 and stored this byte. -/
  | byte (b : Byte)
  /-- The call returned 0: no byte arrived within the timeout. -/
  | timeout
  /-- The call returned -1 with `errno == EAGAIN`. -/
  | eagain
  /-- The call returned -1 with another `errno`. -/
  | error
  deriving DecidableEq, Repr

/-- Outcome of `editorReadKey` on a stream of `read` results. -/
inductive ReadKey where
  /-- The function returned `c`; `rest` is the unread part of the stream. -/
  | key (c : Int) (rest : List ReadResult)
  /-- The function called `die("read input")`. -/
  | died
  /-- The first loop never received a byte: the function does not return. -/
  | blocked
  deriving DecidableEq, Repr

/-- One `read` call on the stream.  The stream lists what the terminal will
ever deliver; once it is used up every further `read` times out. -/
def readByte : List ReadResult → ReadResult × List ReadResult
  | [] => (ReadResult.timeout, [])
  | r :: rs => (r, rs)

/-- The loop `while ((nread = read(STDIN_FILENO, &c, 1)) != 1)` of
`editorReadKey`: retries on a timeout and on `EAGAIN`, dies on any other
error. -/
def waitByte : List ReadResult → Option (Option (Byte × List ReadResult))
  | [] => none
  | ReadResult.byte b :: rs => some (some (b, rs))
  | ReadResult.timeout :: rs => waitByte rs
  | ReadResult.eagain :: rs => waitByte rs
  | ReadResult.error :: _ => some none

/-- The `switch (seq[1])` under `seq[2] == '~'`; falls through to
`return '\x1b'`. -/
def csiDigitKey (s1 : Int) : Int :=
  if s1 = 49 ∨ s1 = 55 then HOME_KEY        -- '1', '7'
  else if s1 = 52 ∨ s1 = 56 then END_KEY    -- '4', '8'
  else if s1 = 53 then PAGE_UP              -- '5'
  else if s1 = 54 then PAGE_DOWN            -- '6'
  else if s1 = 51 then DEL_KEY              -- '3'
  else ESC

/-- The `switch (seq[1])` of the `ESC [` letter branch. -/
def csiLetterKey (s1 : Int) : Int :=
  if s1 = 65 then ARROW_UP                  -- 'A'
  else if s1 = 66 then ARROW_DOWN           -- 'B'
  else if s1 = 67 then ARROW_RIGHT          -- 'C'
  else if s1 = 68 then ARROW_LEFT           -- 'D'
  else if s1 = 72 then HOME_KEY             -- 'H'
  else if s1 = 70 then END_KEY              -- 'F'
  else ESC

/-- The `switch (seq[1])` of the `ESC O` branch. -/
def ss3Key (s1 : Int) : Int :=
  if s1 = 72 then HOME_KEY                  -- 'H'
  else if s1 = 70 then END_KEY              -- 'F'
  else ESC

/-- The body of `if (c == '\x1b')` in `editorReadKey`, on the stream that
follows the escape byte. -/
def readEscape (input : List ReadResult) : ReadKey :=
  match readByte input with
  | (ReadResult.byte b0, r1) =>
    match readByte r1 with
    | (ReadResult.byte b1, r2) =>
      let seq0 := charToInt b0
      let seq1 := charToInt b1
      if seq0 = 91 then                                   -- '['
        if seq1 ≥ 48 ∧ seq1 ≤ 57 then                     -- '0' .. '9'
          match readByte r2 with
          | (ReadResult.byte b2, r3) =>
            if charToInt b2 = 126 then                    -- '~'
              ReadKey.key (csiDigitKey seq1) r3
            else ReadKey.key ESC r3
          | (_, r3) => ReadKey.key ESC r3
        else ReadKey.key (csiLetterKey seq1) r2
      else if seq0 = 79 then                              -- 'O'
        ReadKey.key (ss3Key seq1) r2
      else ReadKey.key ESC r2
    | (_, r2) => ReadKey.key ESC r2
  | (_, r1) => ReadKey.key ESC r1

/-- The function `editorReadKey` as a function of the stream of `read` results. -/
def editorReadKey (input : List ReadResult) : ReadKey :=
  match waitByte input with
  | none => ReadKey.blocked
  | some none => ReadKey.died
  | some (some (c, rest)) =>
    if charToInt c = ESC then readEscape rest
    else ReadKey.key (charToInt c) rest

/-- A stream of idle `read` results: `true` is a timeout, `false` an
`EAGAIN`. -/
def idle (waits : List Bool) : List ReadResult :=
  waits.map fun w => if w then ReadResult.timeout else ReadResult.eagain

/-- The recognised complete escape sequences of the decoding table, as a
predicate on the `read` results that follow the escape byte: `[` and a letter
of `A B C D H F`; `[`, a digit of `1 3 4 5 6 7 8` and `~`; `O` and `H` or
`F`. -/
def recognised (after : List ReadResult) : Bool :=
  match after with
  | ReadResult.byte b0 :: ReadResult.byte b1 :: more =>
    (b0.val == 91 && (b1.val ∈ [65, 66, 67, 68, 72, 70])) ||
    (b0.val == 79 && (b1.val ∈ [72, 70])) ||
    (b0.val == 91 && (b1.val ∈ [49, 51, 52, 53, 54, 55, 56]) &&
      (match more with
       | ReadResult.byte b2 :: _ => b2.val == 126
       | _ => false))
  | _ => false

/-! ## Data model -/

/-- The row `typedef struct erow`: `chars` and `render` are the strings held
by the two buffers, `size` and `rsize` the stored lengths. -/
structure erow where
  size : Int
  rsize : Int
  chars : List Byte
  render : List Byte
  deriving DecidableEq, Repr

/-- The state `struct editorConfig` (the saved `termios` is left out): `row`
is the array of `numRows` rows; `filename` is `none` for a NULL pointer. -/
structure editorConfig where
  cx : Int
  cy : Int
  rx : Int
  rowOffset : Int
  columnOffset : Int
  screenRows : Int
  screenCols : Int
  numRows : Int
  row : List erow
  filename : Option (List Byte)
  statusMsg : List Byte
  statusMsgTime : Int
  deriving DecidableEq, Repr

/-- The byte `row->chars[j]`.  The buffer ends with a NUL at `j = size`; the
model reads 0 there and beyond. -/
def erow.charAt (row : erow) (j : Nat) : Byte := row.chars.getD j 0

/-- The row `EditorConfig.row[i]`; `none` outside the array. -/
def rowAt (E : editorConfig) (i : Int) : Option erow :=
  if i < 0 then none else E.row[i.toNat]?

/-! ## Row store -/

/-- One pass of the body of the `for` loop of `editorRowCxToRx`. -/
def cxToRxStep (row : erow) (rx : Int) (j : Nat) : Int :=
  (if row.charAt j = 9 then rx + ((KILO_TAB_STOP - 1) - cmod rx KILO_TAB_STOP) else rx) + 1

/-- The function `editorRowCxToRx`: the loop `for (j = 0; j < cx; j++)` from `rx = 0`. -/
def editorRowCxToRx (row : erow) (cx : Int) : Int :=
  (List.range cx.toNat).foldl (cxToRxStep row) 0

/-- The first loop of `editorUpdateRow`: the number of tab bytes among
`chars[0 .. size)`. -/
def countTabs (row : erow) : Int :=
  (List.range row.size.toNat).foldl (fun tabs j => if row.charAt j = 9 then tabs + 1 else tabs) 0

/-- The store `row->render[idx] = b` into the allocated buffer `buf`; `none`
when `idx` lies outside the buffer. -/
def storeByte (buf : List Byte) (idx : Int) (b : Byte) : Option (List Byte) :=
  if 0 ≤ idx ∧ idx < buf.length then some (buf.set idx.toNat b) else none

/-- The loop `while (idx % KILO_TAB_STOP != 0) row->render[idx++] = ' ';`,
bounded by a number of passes. -/
def padToTabStop : Nat → List Byte → Int → Option (List Byte × Int)
  | 0, _, _ => none
  | fuel + 1, buf, idx =>
    if cmod idx KILO_TAB_STOP ≠ 0 then
      (storeByte buf idx 32).bind fun buf1 => padToTabStop fuel buf1 (idx + 1)
    else some (buf, idx)

/-- One pass of the second loop of `editorUpdateRow` on the buffer and
`idx`. -/
def expandStep (row : erow) (st : List Byte × Int) (j : Nat) : Option (List Byte × Int) :=
  if row.charAt j = 9 then
    (storeByte st.1 st.2 32).bind fun buf1 => padToTabStop 8 buf1 (st.2 + 1)
  else
    (storeByte st.1 st.2 (row.charAt j)).map fun buf1 => (buf1, st.2 + 1)

/-- The function `editorUpdateRow`: allocates `size + tabs*(KILO_TAB_STOP - 1) + 1` bytes,
expands the tabs into it, stores the NUL and sets `rsize`.  The `render` of the
result is the string before the NUL.  The arithmetic here is exact;
`editorUpdateRow32` below has the arithmetic of `int`, and the two agree on
every row with `size + 7 * tabs + 1 <= INT_MAX`. -/
def editorUpdateRow (row : erow) : Option erow :=
  let tabs := countTabs row
  let buf0 : List Byte := List.replicate (row.size + tabs * (KILO_TAB_STOP - 1) + 1).toNat 0
  (List.foldlM (expandStep row) (buf0, (0 : Int)) (List.range row.size.toNat)).bind fun st =>
    (storeByte st.1 st.2 0).map fun buf1 =>
      { row with render := buf1.take st.2.toNat, rsize := st.2 }

/-- The call `editorAppendRow(s, len)`: stores the first `len` bytes of `s` as a new
last row and renders it. -/
def editorAppendRow (s : List Byte) (len : Nat) (E : editorConfig) : Option editorConfig :=
  (editorUpdateRow { size := (len : Int), chars := s.take len, rsize := 0, render := [] }).map
    fun row1 => { E with row := E.row ++ [row1], numRows := E.numRows + 1 }

/-- The loop of `editorOpen` that drops trailing `\n` and `\r`:
`while (linelen > 0 && (line[linelen - 1] == '\n' || line[linelen - 1] == '\r')) linelen--`. -/
def stripLineEnd (line : List Byte) : Nat → Nat
  | 0 => 0
  | n + 1 => if line.getD n 0 = 10 ∨ line.getD n 0 = 13 then stripLineEnd line n else n + 1

/-- The function `editorOpen` on a file that `fopen` could open; `lines` are the successive
results of `getline`. -/
def editorOpen (filename : List Byte) (lines : List (List Byte)) (E : editorConfig) :
    Option editorConfig :=
  lines.foldlM (fun E1 line => editorAppendRow line (stripLineEnd line line.length) E1)
    { E with filename := some filename }

/-- The function `initEditor` when `getWindowSize` reported `wsRows` rows and `wsCols`
columns. -/
def initEditor (wsRows wsCols : Int) : editorConfig :=
  { cx := 0, cy := 0, rx := 0, rowOffset := 0, columnOffset := 0, numRows := 0, row := [],
    filename := none, statusMsg := [], statusMsgTime := 0,
    screenRows := wsRows - 2, screenCols := wsCols }

/-- The function `editorSetStatusMessage` with the formatted text `msg` at time `now`: the
buffer keeps at most 79 bytes. -/
def editorSetStatusMessage (msg : List Byte) (now : Int) (E : editorConfig) : editorConfig :=
  { E with statusMsg := msg.take 79, statusMsgTime := now }

/-- The bytes of an ASCII string literal. -/
def bytesOf (s : String) : List Byte := s.toList.map fun c => Fin.ofNat c.toNat

/-- The part of `main` before the loop: `initEditor`, `editorOpen` when a
file argument is given, and the help message. -/
def startup (wsRows wsCols : Int) (file : Option (List Byte × List (List Byte))) (now : Int) :
    Option editorConfig :=
  (match file with
    | none => some (initEditor wsRows wsCols)
    | some (name, lines) => editorOpen name lines (initEditor wsRows wsCols)).map
    (editorSetStatusMessage (bytesOf "HELP: Ctrl-Q = quit") now)

/-! ## Viewport engine -/

/-- The function `editorScroll`: sets `rx`, then moves `rowOffset` and
`columnOffset` so that the window holds `cy` and `rx`. -/
def editorScroll (E : editorConfig) : Option editorConfig :=
  (if E.cy < E.numRows then (rowAt E E.cy).map fun r => editorRowCxToRx r E.cx
   else some 0).map fun rx =>
    let E1 := { E with rx := rx }
    let E2 := if E1.cy < E1.rowOffset then { E1 with rowOffset := E1.cy } else E1
    let E3 := if E2.cy ≥ E2.rowOffset + E2.screenRows then
      { E2 with rowOffset := E2.cy - E2.screenRows + 1 } else E2
    let E4 := if E3.rx < E3.columnOffset then { E3 with columnOffset := E3.rx } else E3
    if E4.rx ≥ E4.columnOffset + E4.screenCols then
      { E4 with columnOffset := E4.rx - E4.screenCols + 1 } else E4

/-- The two numbers of the cursor sequence `"\x1b[%d;%dH"` that
`editorRefreshScreen` emits: `(cy - rowOffset) + 1` and
`(rx - columnOffset) + 1`. -/
def cursorPosition (E : editorConfig) : Int × Int :=
  ((E.cy - E.rowOffset) + 1, (E.rx - E.columnOffset) + 1)

/-- The cursor part of `editorRefreshScreen`: `editorScroll`, then the cursor
position emitted for the scrolled state. -/
def editorRefreshScreenCursor (E : editorConfig) : Option (editorConfig × (Int × Int)) :=
  (editorScroll E).map fun E1 => (E1, cursorPosition E1)

/-- The `switch (key)` of `editorMoveCursor`. -/
def moveCursorSwitch (key : Int) (E : editorConfig) : Option editorConfig :=
  if key = ARROW_LEFT then
    if E.cx ≠ 0 then some { E with cx := E.cx - 1 }
    else if E.cy > 0 then
      (rowAt E (E.cy - 1)).map fun r => { E with cy := E.cy - 1, cx := r.size }
    else some E
  else if key = ARROW_DOWN then
    if E.cy < E.numRows then some { E with cy := E.cy + 1 } else some E
  else if key = ARROW_UP then
    if E.cy ≠ 0 then some { E with cy := E.cy - 1 } else some E
  else if key = ARROW_RIGHT then
    if E.cy ≥ E.numRows then some E
    else
      (rowAt E E.cy).map fun r =>
        if E.cx < r.size then { E with cx := E.cx + 1 }
        else if E.cx = r.size then { E with cy := E.cy + 1, cx := 0 }
        else E
  else some E

/-- The value `rowLength` of `editorMoveCursor`: `row ? row->size : 0` for the
row at `cy`, NULL when `cy >= numRows`. -/
def rowLength (E : editorConfig) : Option Int :=
  if E.cy ≥ E.numRows then some 0 else (rowAt E E.cy).map fun r => r.size

/-- The call `editorMoveCursor(key)`: the switch, then the clamp of `cx` to the length
of the row at the new `cy`. -/
def editorMoveCursor (key : Int) (E : editorConfig) : Option editorConfig :=
  (moveCursorSwitch key E).bind fun E1 =>
    (rowLength E1).map fun len =>
      if E1.cx > len then { E1 with cx := len } else E1

/-- The loop `while (times--) editorMoveCursor(key)` for a count `times`. -/
def moveTimes (key : Int) : Nat → editorConfig → Option editorConfig
  | 0, E => some E
  | times + 1, E => (editorMoveCursor key E).bind (moveTimes key times)

/-- How the handling of one key ends. -/
inductive KeyOutcome where
  /-- The function returned with this state. -/
  | running (E : editorConfig)
  /-- The function called `exit(code)`. -/
  | exited (code : Int)
  /-- The behaviour is undefined in C: a row access outside the array, or the
  countdown of a negative `times`, which overflows. -/
  | undefined
  deriving DecidableEq, Repr

/-- A step that may be undefined, as a key outcome. -/
def KeyOutcome.ofOption : Option editorConfig → KeyOutcome
  | some E => KeyOutcome.running E
  | none => KeyOutcome.undefined

/-- The `switch (c)` of `editorProcessKeypress` on the decoded key `c`. -/
def editorProcessKey (c : Int) (E : editorConfig) : KeyOutcome :=
  if c = CTRL_KEY 113 then KeyOutcome.exited 0                      -- CTRL_KEY('q')
  else if c = HOME_KEY then KeyOutcome.running { E with cx := 0 }
  else if c = END_KEY then
    if E.cy < E.numRows then
      KeyOutcome.ofOption ((rowAt E E.cy).map fun r => { E with cx := r.size })
    else KeyOutcome.running E
  else if c = PAGE_UP ∨ c = PAGE_DOWN then
    let E1 :=
      if c = PAGE_UP then { E with cy := E.rowOffset }
      else
        let E0 := { E with cy := E.rowOffset + E.screenRows - 1 }
        if E0.cy > E0.numRows then { E0 with cy := E0.numRows } else E0
    if E1.screenRows < 0 then KeyOutcome.undefined
    else
      KeyOutcome.ofOption
        (moveTimes (if c = PAGE_UP then ARROW_UP else ARROW_DOWN) E1.screenRows.toNat E1)
  else if c = ARROW_LEFT ∨ c = ARROW_DOWN ∨ c = ARROW_UP ∨ c = ARROW_RIGHT then
    KeyOutcome.ofOption (editorMoveCursor c E)
  else KeyOutcome.running E

/-- How one call of `editorProcessKeypress` ends on a stream of `read`
results. -/
inductive Keypress where
  /-- A key was read and handled; `rest` is the unread part of the stream. -/
  | handled (out : KeyOutcome) (rest : List ReadResult)
  /-- `editorReadKey` called `die`. -/
  | died
  /-- `editorReadKey` never returned. -/
  | blocked
  deriving DecidableEq, Repr

/-- The function `editorProcessKeypress`: `editorReadKey`, then the switch on its
result. -/
def editorProcessKeypress (input : List ReadResult) (E : editorConfig) : Keypress :=
  match editorReadKey input with
  | ReadKey.key c rest => Keypress.handled (editorProcessKey c E) rest
  | ReadKey.died => Keypress.died
  | ReadKey.blocked => Keypress.blocked

/-! ## Session loop -/

/-- The states at the top of the loop `while (1)` of `main`: the state after
`startup`, and the state after one more pass (`editorRefreshScreen`, whose
only effect on the state is `editorScroll`, then a key handled without
leaving the loop). -/
inductive Reachable (wsRows wsCols : Int) (file : Option (List Byte × List (List Byte)))
    (now : Int) : editorConfig → Prop where
  | start (E : editorConfig) (h : startup wsRows wsCols file now = some E) :
      Reachable wsRows wsCols file now E
  | pass (E E1 E2 : editorConfig) (c : Int) (h : Reachable wsRows wsCols file now E)
      (hs : editorScroll E = some E1) (hk : editorProcessKey c E1 = KeyOutcome.running E2) :
      Reachable wsRows wsCols file now E2

/-- The length of the row under the cursor as the data model describes it: the
`size` of the row at `cy`, and 0 when `cy` is not the index of a row. -/
def cursorRowSize (E : editorConfig) : Int :=
  match rowAt E E.cy with
  | some r => r.size
  | none => 0

/-- The last statement of `editorMoveCursor` once `rowLength` is known to be
the size of the row under the cursor: `if (cx > rowLength) cx = rowLength`. -/
def clampCx (E : editorConfig) : editorConfig :=
  if E.cx > cursorRowSize E then { E with cx := cursorRowSize E } else E

/-- The value `editorScroll` stores in `rx`: `editorRowCxToRx` of the cursor
row when `cy < numRows`, else 0. -/
def scrollRx (E : editorConfig) : Option Int :=
  if E.cy < E.numRows then (rowAt E E.cy).map fun r => editorRowCxToRx r E.cx else some 0

/-- The two `if` statements by which `editorScroll` adjusts an offset `off`
to a position `pos` on a screen of `len` cells. -/
def scrollOffset (pos off len : Int) : Int :=
  if pos ≥ (if pos < off then pos else off) + len then pos - len + 1
  else (if pos < off then pos else off)

/-- The state with the cursor fields `cx` and `cy` reset: what a cursor move
must leave alone. -/
def withoutCursor (E : editorConfig) : editorConfig := { E with cx := 0, cy := 0 }

/-- A well-formed document with the cursor on a row or just after the last
one: the array holds `numRows` rows, no row has a negative `size`, `cy` is
in `[0, numRows]` and `cx` is not negative. -/
structure CursorOnDoc (E : editorConfig) : Prop where
  rows : E.numRows = E.row.length
  sizes : ∀ r ∈ E.row, 0 ≤ r.size
  cy_nonneg : 0 ≤ E.cy
  cy_le : E.cy ≤ E.numRows
  cx_nonneg : 0 ≤ E.cx

/-- The cursor range invariant of the data model: `cy` in `[0, numRows]` and
`cx` in `[0, size of the row at cy]`, which is `[0, 0]` when `cy = numRows`. -/
structure CursorInRange (E : editorConfig) : Prop where
  onDoc : CursorOnDoc E
  cx_le : E.cx ≤ cursorRowSize E

/-- What `startup` establishes and every pass of the loop keeps: the cursor
range invariant, a row offset that is not negative, and the screen height
`sr`. -/
structure SessionInv (sr : Int) (E : editorConfig) : Prop where
  inRange : CursorInRange E
  rowOffset_nonneg : 0 ≤ E.rowOffset
  screenRows_eq : E.screenRows = sr

/-! ## Reference tab expansion -/

/-- One step of the reference tab expansion on the text rendered so far: a
tab becomes as many spaces (between 1 and 8) as bring the rendered length to
the next multiple of 8, any other byte is copied unchanged. -/
def tabStep (out : List Byte) (c : Byte) : List Byte :=
  if c = 9 then out ++ List.replicate (8 - out.length % 8) 32 else out ++ [c]

/-- The reference tab expansion of a line: `tabStep` over its bytes from left
to right, starting from the empty text. -/
def expandTabs (chars : List Byte) : List Byte := chars.foldl tabStep []

/-- The bytes `chars[0 .. n)` that the loops of `editorRowCxToRx` and
`editorUpdateRow` read. -/
def erow.firstBytes (row : erow) (n : Nat) : List Byte := (List.range n).map row.charAt

/-! ## Reference line stripping -/

/-- The line-ending bytes `\n` (10) and `\r` (13). -/
def isLineEnd (b : Byte) : Bool := b == 10 || b == 13

/-- A source line with its line-ending characters stripped: the line without
the `\n` and `\r` bytes at its end. -/
def stripped (line : List Byte) : List Byte := line.rdropWhile isLineEnd

/-- The row that stores the text `cs`: `size` its length, `render` its
reference tab expansion and `rsize` the length of that. -/
def renderedRow (cs : List Byte) : erow :=
  { size := (cs.length : Int), rsize := ((expandTabs cs).length : Int), chars := cs,
    render := expandTabs cs }

/-! ## Screen compositor -/

/-- The version text `#define KILO_VERSION "0.1.0-RC1"`. -/
def KILO_VERSION : List Byte := bytesOf "0.1.0-RC1"

/-- C division `a / b`, truncating toward zero. -/
def cdiv (a b : Int) : Int := Int.tdiv a b

/-- The text that `printf` writes for `%d`. -/
def fmtInt (n : Int) : List Byte :=
  if n < 0 then 45 :: (Nat.toDigits 10 (-n).toNat).map fun c => Fin.ofNat c.toNat
  else (Nat.toDigits 10 n.toNat).map fun c => Fin.ofNat c.toNat

/-- The call `snprintf(buf, size, ...)` whose complete output would be `text`:
the string left in `buf` (at most `size - 1` bytes) and the value returned
(the length of `text`). -/
def snprintf (size : Nat) (text : List Byte) : List Byte × Int :=
  (text.take (size - 1), (text.length : Int))

/-- The bytes `s[0 .. len)` that `memcpy` reads from the string `s`; `none`
when `len` is negative or reaches past the end of the string. -/
def readBytes (s : List Byte) (len : Int) : Option (List Byte) :=
  if 0 ≤ len ∧ len ≤ s.length then some (s.take len.toNat) else none

/-- The call `abAppend(ab, s, len)` when `realloc` succeeds: the buffer with
the bytes `s[0 .. len)` added. -/
def abAppend (ab : List Byte) (s : List Byte) (len : Int) : Option (List Byte) :=
  (readBytes s len).map fun bytes => ab ++ bytes

/-- The string at `&row->render[columnOffset]`: the bytes of `render` from
index `columnOffset` up to `rsize`; nothing when the pointer is outside the
string. -/
def renderFrom (r : erow) (columnOffset : Int) : List Byte :=
  if 0 ≤ columnOffset then r.render.drop columnOffset.toNat else []

/-- The loop `while (padding--) abAppend(ab, " ", 1);` for a count
`padding`. -/
def appendSpaces : Nat → List Byte → Option (List Byte)
  | 0, ab => some ab
  | padding + 1, ab => (abAppend ab [32] 1).bind (appendSpaces padding)

/-- The welcome branch of `editorDrawRows`: the banner
`"Kilo Editor -- version " KILO_VERSION` in a buffer of 33 bytes, cut to
`screenCols` and preceded by `"~"` and spaces up to half of the room left. -/
def drawWelcome (E : editorConfig) (ab : List Byte) : Option (List Byte) :=
  let welcome := snprintf 33 (bytesOf "Kilo Editor -- version " ++ KILO_VERSION)
  let welcomelen := if welcome.2 > E.screenCols then E.screenCols else welcome.2
  let padding := cdiv (E.screenCols - welcomelen) 2
  (if padding ≠ 0 then (abAppend ab [126] 1).map fun ab1 => (ab1, padding - 1)
   else some (ab, padding)).bind fun st =>
    if st.2 < 0 then none
    else (appendSpaces st.2.toNat st.1).bind fun ab2 => abAppend ab2 welcome.1 welcomelen

/-- One pass of the loop of `editorDrawRows`, for the screen row `y`. -/
def drawRow (E : editorConfig) (y : Int) (ab : List Byte) : Option (List Byte) :=
  (if y + E.rowOffset ≥ E.numRows then
     if E.numRows = 0 ∧ y = cdiv E.screenRows 3 then drawWelcome E ab
     else abAppend ab [126] 1                                        -- "~"
   else
     (rowAt E (y + E.rowOffset)).bind fun r =>
       let len0 := r.rsize - E.columnOffset
       let len1 := if len0 < 0 then 0 else len0
       let len2 := if len1 > E.screenCols then E.screenCols else len1
       abAppend ab (renderFrom r E.columnOffset) len2).bind fun ab1 =>
    (abAppend ab1 [27, 91, 75] 3).bind fun ab2 =>                    -- "\x1b[K"
      abAppend ab2 [13, 10] 2                                        -- "\r\n"

/-- The function `editorDrawRows`: the loop `for (y = 0; y < screenRows; y++)`. -/
def editorDrawRows (E : editorConfig) (ab : List Byte) : Option (List Byte) :=
  (List.range E.screenRows.toNat).foldlM
    (fun (ab1 : List Byte) (y : Nat) => drawRow E (y : Int) ab1) ab

/-- The loop `while (len < screenCols)` of `editorDrawStatusBar`, bounded by
a number of passes: spaces until exactly `rlen` columns are left, then
`rstatus`. -/
def statusFill (E : editorConfig) (rstatus : List Byte) (rlen : Int) :
    Nat → Int → List Byte → Option (List Byte)
  | 0, len, ab => if len < E.screenCols then none else some ab
  | fuel + 1, len, ab =>
    if len < E.screenCols then
      if E.screenCols - len = rlen then abAppend ab rstatus rlen
      else (abAppend ab [32] 1).bind fun ab1 => statusFill E rstatus rlen fuel (len + 1) ab1
    else some ab

/-- The left text of the status bar, the output of
`"%.20s - %d lines"` for the file name (or `"[No Name]"`) and `numRows`. -/
def statusText (E : editorConfig) : List Byte :=
  (E.filename.getD (bytesOf "[No Name]")).take 20 ++ bytesOf " - " ++ fmtInt E.numRows ++
    bytesOf " lines"

/-- The right text of the status bar, the output of `"%d/%d"` for `cy + 1`
and `numRows`. -/
def rstatusText (E : editorConfig) : List Byte :=
  fmtInt (E.cy + 1) ++ [47] ++ fmtInt E.numRows

/-- The function `editorDrawStatusBar`. -/
def editorDrawStatusBar (E : editorConfig) (ab : List Byte) : Option (List Byte) :=
  (abAppend ab [27, 91, 55, 109] 4).bind fun ab1 =>                  -- "\x1b[7m"
    let status := snprintf 80 (statusText E)
    let rstatus := snprintf 80 (rstatusText E)
    let len := if status.2 > E.screenCols then E.screenCols else status.2
    (abAppend ab1 status.1 len).bind fun ab2 =>
      (statusFill E rstatus.1 rstatus.2 (E.screenCols - len).toNat len ab2).bind fun ab3 =>
        (abAppend ab3 [27, 91, 109] 3).bind fun ab4 =>               -- "\x1b[m"
          abAppend ab4 [13, 10] 2                                    -- "\r\n"

/-! ## Raw mode and process termination -/

/-- The configuration of the terminal: the one saved in `original_termios`,
or the raw one set by `enableRawMode`. -/
inductive TermMode where
  | original
  | raw
  deriving DecidableEq, Repr

/-- What the system answers during one run of `main`: whether each `termios`
call succeeds, the window size (`none` when `getWindowSize` returns -1), the
file argument (`none` without `argv[1]`; its name with `none` when `fopen`
fails, else with the lines read), the time, and the stream of `read`
results. -/
structure Calls where
  tcgetattrOk : Bool
  tcsetattrRawOk : Bool
  restoreOk : Bool
  windowSize : Option (Int × Int)
  file : Option (List Byte × Option (List (List Byte)))
  now : Int
  input : List ReadResult
  deriving DecidableEq, Repr

/-- What the process does on its way out, in order: the Ctrl-Q branch of
`editorProcessKeypress` (clear the screen, `exit(0)`), a call of `die` (clear
the screen, `perror`, `exit(1)`), and a run of the handler `disableRawMode`
with the outcome of its `tcsetattr`. -/
inductive Event where
  | quit
  | die
  | disableRawMode (restored : Bool)
  deriving DecidableEq, Repr

/-- How a run of `main` ends. -/
inductive Ending where
  /-- The process terminated with exit status `code` after the `events`, in
  that order; `mode` is the terminal configuration it leaves. -/
  | exited (code : Int) (events : List Event) (mode : TermMode)
  /-- The process waits for a key for ever. -/
  | blocked
  /-- The behaviour is undefined in C. -/
  | undefined
  /-- The bound on the number of passes of the loop was reached. -/
  | outOfPasses
  deriving DecidableEq, Repr

/-- The call `exit(code)` reached after `events`: the handlers registered with
`atexit` run, then the process terminates with `code`.  The handler
`disableRawMode` restores the saved configuration; when its `tcsetattr` fails
it calls `die`, whose `exit(1)` ends the process with the terminal as it
was. -/
def exitWith (c : Calls) (registered : Bool) (mode : TermMode) (events : List Event)
    (code : Int) : Ending :=
  if registered then
    if c.restoreOk then
      Ending.exited code (events ++ [Event.disableRawMode true]) TermMode.original
    else Ending.exited 1 (events ++ [Event.disableRawMode false, Event.die]) mode
  else Ending.exited code events mode

/-- The function `die`: clears the screen, reports, and calls `exit(1)`. -/
def die (c : Calls) (registered : Bool) (mode : TermMode) : Ending :=
  exitWith c registered mode [Event.die] 1

/-- The loop `while (1)` of `main` in raw mode with the handler registered,
for at most `passes` passes: `editorRefreshScreen` (its effect on the state
is `editorScroll`), then `editorProcessKeypress`, whose Ctrl-Q branch calls
`exit` and whose `editorReadKey` may call `die`. -/
def sessionLoop (c : Calls) : Nat → List ReadResult → editorConfig → Ending
  | 0, _, _ => Ending.outOfPasses
  | passes + 1, input, E =>
    match editorScroll E with
    | none => Ending.undefined
    | some E1 =>
      match editorProcessKeypress input E1 with
      | Keypress.died => die c true TermMode.raw
      | Keypress.blocked => Ending.blocked
      | Keypress.handled (KeyOutcome.exited code) _ =>
        exitWith c true TermMode.raw [Event.quit] code
      | Keypress.handled KeyOutcome.undefined _ => Ending.undefined
      | Keypress.handled (KeyOutcome.running E2) rest => sessionLoop c passes rest E2

/-- The function `main`: `enableRawMode` (`tcgetattr`, `atexit`, `tcsetattr`),
`initEditor`, `editorOpen` for a file argument, the help message, and the
loop.  Every key consumes a `read` result, so one pass per result and one
more are enough. -/
def runMain (c : Calls) : Ending :=
  if c.tcgetattrOk = false then die c false TermMode.original
  else if c.tcsetattrRawOk = false then die c true TermMode.original
  else
    match c.windowSize with
    | none => die c true TermMode.raw
    | some (rows, cols) =>
      match c.file with
      | none =>
        sessionLoop c (c.input.length + 1) c.input
          (editorSetStatusMessage (bytesOf "HELP: Ctrl-Q = quit") c.now (initEditor rows cols))
      | some (_, none) => die c true TermMode.raw
      | some (name, some lines) =>
        match editorOpen name lines (initEditor rows cols) with
        | none => Ending.undefined
        | some E =>
          sessionLoop c (c.input.length + 1) c.input
            (editorSetStatusMessage (bytesOf "HELP: Ctrl-Q = quit") c.now E)

/-- The largest value of an `int`. -/
def INT_MAX : Int := 2147483647

/-- The value that 32-bit two's-complement arithmetic leaves in an `int` when
the exact result is `x`.  Signed overflow is undefined in C; this is the
wraparound of the machine. -/
def wrapInt (x : Int) : Int := (x + 2147483648) % 4294967296 - 2147483648

/-- The first loop of `editorUpdateRow` with `tabs` an `int`. -/
def countTabs32 (row : erow) : Int :=
  (List.range row.size.toNat).foldl
    (fun tabs j => if row.charAt j = 9 then wrapInt (tabs + 1) else tabs) 0

/-- The buffer that `malloc(n)` returns for an `int` argument `n`: `n` bytes
when `n` is not negative.  A negative `n` becomes a `size_t` above `2^63`,
which `malloc` cannot grant: it returns NULL and there is no byte to store
into. -/
def mallocRender (n : Int) : List Byte :=
  if n < 0 then [] else List.replicate n.toNat 0

/-- The loop `while (idx % KILO_TAB_STOP != 0) row->render[idx++] = ' ';` with
`idx` an `int`, bounded by a number of passes. -/
def padToTabStop32 : Nat → List Byte → Int → Option (List Byte × Int)
  | 0, _, _ => none
  | fuel + 1, buf, idx =>
    if cmod idx KILO_TAB_STOP ≠ 0 then
      (storeByte buf idx 32).bind fun buf1 => padToTabStop32 fuel buf1 (wrapInt (idx + 1))
    else some (buf, idx)

/-- One pass of the second loop of `editorUpdateRow` with `idx` an `int`. -/
def expandStep32 (row : erow) (st : List Byte × Int) (j : Nat) : Option (List Byte × Int) :=
  if row.charAt j = 9 then
    (storeByte st.1 st.2 32).bind fun buf1 => padToTabStop32 8 buf1 (wrapInt (st.2 + 1))
  else
    (storeByte st.1 st.2 (row.charAt j)).map fun buf1 => (buf1, wrapInt (st.2 + 1))

/-- The function `editorUpdateRow` with its arithmetic done in `int`: `tabs`,
the allocation size `row->size + tabs*(KILO_TAB_STOP - 1) + 1` and `idx` are
reduced to 32 bits after every operation.  `none` when a store leaves the
buffer. -/
def editorUpdateRow32 (row : erow) : Option erow :=
  let tabs := countTabs32 row
  let buf0 : List Byte :=
    mallocRender (wrapInt (wrapInt (row.size + wrapInt (tabs * (KILO_TAB_STOP - 1))) + 1))
  (List.foldlM (expandStep32 row) (buf0, (0 : Int)) (List.range row.size.toNat)).bind fun st =>
    (storeByte st.1 st.2 0).map fun buf1 =>
      { row with render := buf1.take st.2.toNat, rsize := st.2 }

/-- A row of `n` tab bytes, not yet rendered. -/
def tabRow (n : Nat) : erow :=
  { size := (n : Int), rsize := 0, chars := List.replicate n 9, render := [] }

/-! ## Sample data -/

/-- The rows that `editorOpen` builds from the two lines `"ab\t\n"` and
`"c\n"`. -/
def sampleRows : List erow :=
  [{ size := 3, rsize := 8, chars := [97, 98, 9], render := [97, 98, 32, 32, 32, 32, 32, 32] },
   { size := 1, rsize := 1, chars := [99], render := [99] }]

/-- The state of a session on `sampleRows` in a terminal of 5 rows and 80
columns, with the cursor at `(cx, cy)` and nothing scrolled. -/
def sampleState (cx cy : Int) : editorConfig :=
  { cx := cx, cy := cy, rx := 0, rowOffset := 0, columnOffset := 0, screenRows := 3,
    screenCols := 80, numRows := 2, row := sampleRows, filename := some [107],
    statusMsg := bytesOf "HELP: Ctrl-Q = quit", statusMsgTime := 0 }

/-- A document of 100 empty rows on a screen of 20 rows, cursor at the origin,
nothing scrolled. -/
def pageSample : editorConfig :=
  { cx := 0, cy := 0, rx := 0, rowOffset := 0, columnOffset := 0, screenRows := 20,
    screenCols := 80, numRows := 100,
    row := List.replicate 100 { size := 0, rsize := 0, chars := [], render := [] },
    filename := none, statusMsg := [], statusMsgTime := 0 }

/-- A document whose first row is `"hello"` (length 5) with the cursor at its
end, `cx = 5`. -/
def rightSample : editorConfig :=
  { cx := 5, cy := 0, rx := 0, rowOffset := 0, columnOffset := 0, screenRows := 22,
    screenCols := 80, numRows := 2,
    row := [{ size := 5, rsize := 5, chars := [104, 101, 108, 108, 111],
              render := [104, 101, 108, 108, 111] },
            { size := 1, rsize := 1, chars := [99], render := [99] }],
    filename := none, statusMsg := [], statusMsgTime := 0 }

/-- The state `sampleState 1 1` scrolled away from its cursor: `rowOffset` 7
and `columnOffset` 40 on a screen of 3 rows and 80 columns. -/
def scrolledSample : editorConfig :=
  { sampleState 1 1 with rowOffset := 7, columnOffset := 40 }

/-- A row of 268435456 tab bytes: one line of a file of 256 MiB. -/
def tabFlood : erow := tabRow 268435456

/-! ## Theorems -/

theorem waitByte_idle (waits : List Bool) (rest : List ReadResult) :
    waitByte (idle waits ++ rest) = waitByte rest := by
  induction waits with
  | nil => rfl
  | cons w ws ih =>
    cases w <;> simpa [idle, waitByte] using ih

theorem editorReadKey_idle_esc (waits : List Bool) (rest : List ReadResult) :
    editorReadKey (idle waits ++ ReadResult.byte 27 :: rest) = readEscape rest := by
  have h27 : charToInt 27 = ESC := by decide
  unfold editorReadKey
  rw [waitByte_idle]
  simp only [waitByte, h27, if_true]

/-- C1: after any number of idle reads, every complete recognised escape
sequence is decoded per the table, leaving the rest of the stream unread. -/
theorem C1_escape_table (waits : List Bool) (rest : List ReadResult) :
    (editorReadKey (idle waits ++ ReadResult.byte 27 :: ReadResult.byte 91 :: ReadResult.byte 65 :: rest)
        = ReadKey.key ARROW_UP rest) ∧
    (editorReadKey (idle waits ++ ReadResult.byte 27 :: ReadResult.byte 91 :: ReadResult.byte 66 :: rest)
        = ReadKey.key ARROW_DOWN rest) ∧
    (editorReadKey (idle waits ++ ReadResult.byte 27 :: ReadResult.byte 91 :: ReadResult.byte 67 :: rest)
        = ReadKey.key ARROW_RIGHT rest) ∧
    (editorReadKey (idle waits ++ ReadResult.byte 27 :: ReadResult.byte 91 :: ReadResult.byte 68 :: rest)
        = ReadKey.key ARROW_LEFT rest) ∧
    (editorReadKey (idle waits ++ ReadResult.byte 27 :: ReadResult.byte 91 :: ReadResult.byte 72 :: rest)
        = ReadKey.key HOME_KEY rest) ∧
    (editorReadKey (idle waits ++ ReadResult.byte 27 :: ReadResult.byte 91 :: ReadResult.byte 70 :: rest)
        = ReadKey.key END_KEY rest) ∧
    (editorReadKey (idle waits ++ ReadResult.byte 27 :: ReadResult.byte 91 :: ReadResult.byte 49 :: ReadResult.byte 126 :: rest)
        = ReadKey.key HOME_KEY rest) ∧
    (editorReadKey (idle waits ++ ReadResult.byte 27 :: ReadResult.byte 91 :: ReadResult.byte 55 :: ReadResult.byte 126 :: rest)
        = ReadKey.key HOME_KEY rest) ∧
    (editorReadKey (idle waits ++ ReadResult.byte 27 :: ReadResult.byte 91 :: ReadResult.byte 52 :: ReadResult.byte 126 :: rest)
        = ReadKey.key END_KEY rest) ∧
    (editorReadKey (idle waits ++ ReadResult.byte 27 :: ReadResult.byte 91 :: ReadResult.byte 56 :: ReadResult.byte 126 :: rest)
        = ReadKey.key END_KEY rest) ∧
    (editorReadKey (idle waits ++ ReadResult.byte 27 :: ReadResult.byte 91 :: ReadResult.byte 53 :: ReadResult.byte 126 :: rest)
        = ReadKey.key PAGE_UP rest) ∧
    (editorReadKey (idle waits ++ ReadResult.byte 27 :: ReadResult.byte 91 :: ReadResult.byte 54 :: ReadResult.byte 126 :: rest)
        = ReadKey.key PAGE_DOWN rest) ∧
    (editorReadKey (idle waits ++ ReadResult.byte 27 :: ReadResult.byte 91 :: ReadResult.byte 51 :: ReadResult.byte 126 :: rest)
        = ReadKey.key DEL_KEY rest) ∧
    (editorReadKey (idle waits ++ ReadResult.byte 27 :: ReadResult.byte 79 :: ReadResult.byte 72 :: rest)
        = ReadKey.key HOME_KEY rest) ∧
    (editorReadKey (idle waits ++ ReadResult.byte 27 :: ReadResult.byte 79 :: ReadResult.byte 70 :: rest)
        = ReadKey.key END_KEY rest) := by
  simp only [editorReadKey_idle_esc]
  refine ⟨?_, ?_, ?_, ?_, ?_, ?_, ?_, ?_, ?_, ?_, ?_, ?_, ?_, ?_, ?_⟩ <;> rfl

theorem charToInt_eq_iff (b : Byte) (k : Nat) (hk : k < 128) :
    charToInt b = (k : Int) ↔ b.val = k := by
  unfold charToInt
  split_ifs with h <;> omega

theorem csiDigitKey_other (b : Byte)
    (h : ¬ (b.val = 49 ∨ b.val = 51 ∨ b.val = 52 ∨ b.val = 53 ∨ b.val = 54 ∨ b.val = 55 ∨ b.val = 56)) :
    csiDigitKey (charToInt b) = ESC := by
  unfold csiDigitKey charToInt
  split_ifs <;> first | rfl | omega

theorem csiLetterKey_other (b : Byte)
    (h : ¬ (b.val = 65 ∨ b.val = 66 ∨ b.val = 67 ∨ b.val = 68 ∨ b.val = 72 ∨ b.val = 70)) :
    csiLetterKey (charToInt b) = ESC := by
  unfold csiLetterKey charToInt
  split_ifs <;> first | rfl | omega

theorem ss3Key_other (b : Byte) (h : ¬ (b.val = 72 ∨ b.val = 70)) :
    ss3Key (charToInt b) = ESC := by
  unfold ss3Key charToInt
  split_ifs <;> first | rfl | omega

theorem readEscape_unrecognised (after : List ReadResult) (h : recognised after = false) :
    ∃ rest, readEscape after = ReadKey.key ESC rest := by
  unfold readEscape
  rcases after with _ | ⟨r0, after1⟩
  · exact ⟨_, rfl⟩
  cases r0 <;> try exact ⟨_, rfl⟩
  rename_i b0
  rcases after1 with _ | ⟨r1, after2⟩
  · exact ⟨_, rfl⟩
  cases r1 <;> try exact ⟨_, rfl⟩
  rename_i b1
  have h91 := charToInt_eq_iff b0 91 (by decide)
  have h79 := charToInt_eq_iff b0 79 (by decide)
  simp only [readByte]
  by_cases c0 : charToInt b0 = 91
  · have v0 : b0.val = 91 := h91.mp c0
    simp only [c0, if_true]
    by_cases cd : charToInt b1 ≥ 48 ∧ charToInt b1 ≤ 57
    · simp only [cd, and_self, if_true]
      rcases after2 with _ | ⟨r2, after3⟩
      · exact ⟨_, rfl⟩
      cases r2 <;> try exact ⟨_, rfl⟩
      rename_i b2
      simp only []
      by_cases c2 : charToInt b2 = 126
      · have v2 : b2.val = 126 := (charToInt_eq_iff b2 126 (by decide)).mp c2
        simp only [c2, if_true]
        refine ⟨after3, ?_⟩
        rw [csiDigitKey_other]
        simp [recognised, v0, v2] at h
        omega
      · simp only [c2, if_false]
        exact ⟨_, rfl⟩
    · simp only [cd, if_false]
      refine ⟨after2, ?_⟩
      rw [csiLetterKey_other]
      simp [recognised, v0] at h
      omega
  · simp only [c0, if_false]
    by_cases c1 : charToInt b0 = 79
    · have v0 : b0.val = 79 := h79.mp c1
      simp only [c1, if_true]
      refine ⟨after2, ?_⟩
      rw [ss3Key_other]
      simp [recognised, v0] at h
      omega
    · simp only [c1, if_false]
      exact ⟨_, rfl⟩

/-- C2: a stream that starts (after idle reads) with the escape byte and does
not continue with a recognised complete sequence makes `editorReadKey` return
the bare escape key 27, which is none of the named keys. -/
theorem C2_unrecognised_escape (waits : List Bool) (after : List ReadResult)
    (h : recognised after = false) :
    (∃ rest, editorReadKey (idle waits ++ ReadResult.byte 27 :: after) = ReadKey.key 27 rest) ∧
    ∀ c rest, editorReadKey (idle waits ++ ReadResult.byte 27 :: after) = ReadKey.key c rest →
      c ∉ [ARROW_LEFT, ARROW_RIGHT, ARROW_UP, ARROW_DOWN, DEL_KEY, HOME_KEY, END_KEY,
        PAGE_UP, PAGE_DOWN] := by
  rw [editorReadKey_idle_esc]
  obtain ⟨rest, hr⟩ := readEscape_unrecognised after h
  refine ⟨⟨rest, hr⟩, ?_⟩
  intro c rest1 hc
  rw [hr] at hc
  injection hc with hc1 _
  subst hc1
  decide

theorem C2_unrecognised_escape_witness :
    (∃ rest, editorReadKey (idle [true, false] ++ ReadResult.byte 27 ::
        [ReadResult.byte 91, ReadResult.byte 50, ReadResult.byte 126, ReadResult.byte 65])
      = ReadKey.key 27 rest) ∧
    ∀ c rest, editorReadKey (idle [true, false] ++ ReadResult.byte 27 ::
        [ReadResult.byte 91, ReadResult.byte 50, ReadResult.byte 126, ReadResult.byte 65])
      = ReadKey.key c rest →
      c ∉ [ARROW_LEFT, ARROW_RIGHT, ARROW_UP, ARROW_DOWN, DEL_KEY, HOME_KEY, END_KEY,
        PAGE_UP, PAGE_DOWN] :=
  C2_unrecognised_escape [true, false]
    [ReadResult.byte 91, ReadResult.byte 50, ReadResult.byte 126, ReadResult.byte 65] (by decide)

/-! ### Tab-expanded column -/

theorem editorRowCxToRx_succ (row : erow) (n : Nat) :
    editorRowCxToRx row ((n : Int) + 1) = cxToRxStep row (editorRowCxToRx row (n : Int)) n := by
  have h : ((n : Int) + 1).toNat = n + 1 := by omega
  unfold editorRowCxToRx
  rw [h, Int.toNat_ofNat, List.range_succ, List.foldl_append]
  rfl

theorem editorRowCxToRx_nonpos (row : erow) (cx : Int) (h : cx ≤ 0) :
    editorRowCxToRx row cx = 0 := by
  have h0 : cx.toNat = 0 := by omega
  unfold editorRowCxToRx
  rw [h0]
  rfl

theorem cmod_le (a : Int) : cmod a KILO_TAB_STOP ≤ 7 := by
  unfold cmod KILO_TAB_STOP
  have h := Int.tmod_lt_of_pos a (show (0 : Int) < 8 by decide)
  omega

theorem cmod_of_nonneg (a : Int) (h : 0 ≤ a) : cmod a KILO_TAB_STOP = a % 8 := by
  unfold cmod KILO_TAB_STOP
  exact Int.tmod_eq_emod h (by decide)

theorem cxToRxStep_gt (row : erow) (rx : Int) (j : Nat) : rx < cxToRxStep row rx j := by
  unfold cxToRxStep
  have h := cmod_le rx
  split_ifs <;> simp only [KILO_TAB_STOP] at * <;> omega

theorem editorRowCxToRx_nonneg (row : erow) (cx : Int) : 0 ≤ editorRowCxToRx row cx := by
  rcases le_or_lt cx 0 with h | h
  · rw [editorRowCxToRx_nonpos row cx h]
  · obtain ⟨n, rfl⟩ := Int.eq_ofNat_of_zero_le (le_of_lt h)
    clear h
    induction n with
    | zero => rw [editorRowCxToRx_nonpos row _ (by simp)]
    | succ k ih =>
      have e : ((k + 1 : Nat) : Int) = (k : Int) + 1 := by push_cast; rfl
      rw [e, editorRowCxToRx_succ]
      exact le_of_lt (lt_of_le_of_lt ih (cxToRxStep_gt row _ k))

theorem editorRowCxToRx_mono_nat (row : erow) (n d : Nat) :
    editorRowCxToRx row (n : Int) ≤ editorRowCxToRx row ((n + d : Nat) : Int) := by
  induction d with
  | zero => exact le_refl _
  | succ k ih =>
    have e : ((n + (k + 1) : Nat) : Int) = ((n + k : Nat) : Int) + 1 := by push_cast; ring
    rw [e, editorRowCxToRx_succ]
    exact le_of_lt (lt_of_le_of_lt ih (cxToRxStep_gt row _ _))

/-- C3: on a row, `editorRowCxToRx` is monotonically non-decreasing in `cx`
over `0 <= cx1 <= cx2 <= row.size`. -/
theorem C3_cxToRx_monotone (row : erow) (cx1 cx2 : Int)
    (h0 : 0 ≤ cx1) (h12 : cx1 ≤ cx2) (_h2 : cx2 ≤ row.size) :
    editorRowCxToRx row cx1 ≤ editorRowCxToRx row cx2 := by
  obtain ⟨n, rfl⟩ := Int.eq_ofNat_of_zero_le h0
  obtain ⟨m, rfl⟩ := Int.eq_ofNat_of_zero_le (le_trans h0 h12)
  have hnm : n ≤ m := by omega
  obtain ⟨d, rfl⟩ := Nat.exists_eq_add_of_le hnm
  exact editorRowCxToRx_mono_nat row n d

theorem C3_cxToRx_monotone_witness :
    editorRowCxToRx { size := 4, rsize := 9, chars := [97, 98, 9, 99], render := [] } 2 ≤
      editorRowCxToRx { size := 4, rsize := 9, chars := [97, 98, 9, 99], render := [] } 3 :=
  C3_cxToRx_monotone { size := 4, rsize := 9, chars := [97, 98, 9, 99], render := [] } 2 3
    (by decide) (by decide) (by decide)

/-- C4: for a position `j` of a row (`0 <= j < row.size`), a tab at `j`
makes `editorRowCxToRx row (j + 1)` a multiple of `KILO_TAB_STOP` = 8
strictly greater than `editorRowCxToRx row j`, and any other byte at `j`
advances the result by exactly 1. -/
theorem C4_cxToRx_step (row : erow) (j : Int) (h0 : 0 ≤ j) (_hj : j < row.size) :
    (row.charAt j.toNat = 9 →
      KILO_TAB_STOP ∣ editorRowCxToRx row (j + 1) ∧
      cmod (editorRowCxToRx row (j + 1)) KILO_TAB_STOP = 0 ∧
      editorRowCxToRx row j < editorRowCxToRx row (j + 1)) ∧
    (row.charAt j.toNat ≠ 9 → editorRowCxToRx row (j + 1) = editorRowCxToRx row j + 1) := by
  obtain ⟨n, rfl⟩ := Int.eq_ofNat_of_zero_le h0
  rw [editorRowCxToRx_succ, Int.toNat_ofNat]
  have hnn := editorRowCxToRx_nonneg row (n : Int)
  constructor
  · intro ht
    have hgt := cxToRxStep_gt row (editorRowCxToRx row (n : Int)) n
    have hstep : cxToRxStep row (editorRowCxToRx row (n : Int)) n
        = editorRowCxToRx row (n : Int) + (7 - editorRowCxToRx row (n : Int) % 8) + 1 := by
      unfold cxToRxStep
      rw [if_pos ht, cmod_of_nonneg _ hnn]
      rfl
    have hpos : 0 ≤ cxToRxStep row (editorRowCxToRx row (n : Int)) n := by omega
    refine ⟨?_, ?_, hgt⟩
    · unfold KILO_TAB_STOP
      omega
    · rw [cmod_of_nonneg _ hpos]
      omega
  · intro hn
    unfold cxToRxStep
    rw [if_neg hn]

theorem C4_cxToRx_step_witness :
    ((erow.mk 4 9 [97, 98, 9, 99] []).charAt (2 : Int).toNat = 9 →
      KILO_TAB_STOP ∣ editorRowCxToRx (erow.mk 4 9 [97, 98, 9, 99] []) (2 + 1) ∧
      cmod (editorRowCxToRx (erow.mk 4 9 [97, 98, 9, 99] []) (2 + 1)) KILO_TAB_STOP = 0 ∧
      editorRowCxToRx (erow.mk 4 9 [97, 98, 9, 99] []) 2
        < editorRowCxToRx (erow.mk 4 9 [97, 98, 9, 99] []) (2 + 1)) ∧
    ((erow.mk 4 9 [97, 98, 9, 99] []).charAt (2 : Int).toNat ≠ 9 →
      editorRowCxToRx (erow.mk 4 9 [97, 98, 9, 99] []) (2 + 1)
        = editorRowCxToRx (erow.mk 4 9 [97, 98, 9, 99] []) 2 + 1) :=
  C4_cxToRx_step (erow.mk 4 9 [97, 98, 9, 99] []) 2 (by decide) (by decide)

/-! ### Cursor moves -/

theorem rowAt_eq_some (E : editorConfig) (i : Int) (h0 : 0 ≤ i) (h1 : i < E.row.length) :
    ∃ r, rowAt E i = some r ∧ r ∈ E.row := by
  have hlt : i.toNat < E.row.length := by omega
  refine ⟨E.row[i.toNat], ?_, List.getElem_mem hlt⟩
  unfold rowAt
  rw [if_neg (by omega), List.getElem?_eq_getElem hlt]

theorem rowAt_eq_none (E : editorConfig) (i : Int) (h1 : (E.row.length : Int) ≤ i) :
    rowAt E i = none := by
  unfold rowAt
  rw [if_neg (by omega)]
  exact List.getElem?_eq_none (by omega)

theorem rowLength_eq (E : editorConfig) (h0 : 0 ≤ E.cy) (hn : E.numRows = E.row.length) :
    rowLength E = some (cursorRowSize E) := by
  unfold rowLength cursorRowSize
  by_cases h : E.cy ≥ E.numRows
  · rw [if_pos h, rowAt_eq_none E E.cy (by omega)]
  · obtain ⟨r, hr, _⟩ := rowAt_eq_some E E.cy h0 (by omega)
    rw [if_neg h, hr]
    rfl

theorem clampCx_cy (E : editorConfig) : (clampCx E).cy = E.cy := by
  unfold clampCx; split_ifs <;> rfl

theorem clampCx_row (E : editorConfig) : (clampCx E).row = E.row := by
  unfold clampCx; split_ifs <;> rfl

theorem clampCx_numRows (E : editorConfig) : (clampCx E).numRows = E.numRows := by
  unfold clampCx; split_ifs <;> rfl

theorem clampCx_rowOffset (E : editorConfig) : (clampCx E).rowOffset = E.rowOffset := by
  unfold clampCx; split_ifs <;> rfl

theorem clampCx_screenRows (E : editorConfig) : (clampCx E).screenRows = E.screenRows := by
  unfold clampCx; split_ifs <;> rfl

theorem cursorRowSize_congr (E F : editorConfig) (hcy : F.cy = E.cy) (hrow : F.row = E.row) :
    cursorRowSize F = cursorRowSize E := by
  unfold cursorRowSize rowAt
  rw [hcy, hrow]

theorem cursorRowSize_clampCx (E : editorConfig) : cursorRowSize (clampCx E) = cursorRowSize E :=
  cursorRowSize_congr E (clampCx E) (clampCx_cy E) (clampCx_row E)

theorem clampCx_cx (E : editorConfig) : (clampCx E).cx = min E.cx (cursorRowSize E) := by
  unfold clampCx
  split_ifs with h
  · exact (min_eq_right (le_of_lt h)).symm
  · exact (min_eq_left (not_lt.mp h)).symm

theorem cursorRowSize_of_le (E : editorConfig) (h : (E.row.length : Int) ≤ E.cy) :
    cursorRowSize E = 0 := by
  unfold cursorRowSize
  rw [rowAt_eq_none E E.cy h]

theorem editorMoveCursor_of_switch (key : Int) (E E1 : editorConfig)
    (hs : moveCursorSwitch key E = some E1) (h0 : 0 ≤ E1.cy) (hn : E1.numRows = E1.row.length) :
    editorMoveCursor key E = some (clampCx E1) := by
  unfold editorMoveCursor
  rw [hs, Option.some_bind, rowLength_eq E1 h0 hn]
  rfl

theorem moveCursorSwitch_vertical (key : Int) (E : editorConfig)
    (hk : key = ARROW_UP ∨ key = ARROW_DOWN) :
    moveCursorSwitch key E = some { E with cy :=
      if key = ARROW_UP then (if E.cy ≠ 0 then E.cy - 1 else E.cy)
      else (if E.cy < E.numRows then E.cy + 1 else E.cy) } := by
  rcases hk with rfl | rfl
  · simp only [moveCursorSwitch, ARROW_UP, ARROW_LEFT, ARROW_DOWN]
    split_ifs <;> first | rfl | omega
  · simp only [moveCursorSwitch, ARROW_UP, ARROW_LEFT, ARROW_DOWN]
    split_ifs <;> first | rfl | omega

theorem editorMoveCursor_vertical (key : Int) (E : editorConfig)
    (hk : key = ARROW_UP ∨ key = ARROW_DOWN) (hcy : 0 ≤ E.cy) (hn : E.numRows = E.row.length) :
    ∃ E1, moveCursorSwitch key E = some E1 ∧ editorMoveCursor key E = some (clampCx E1) ∧
      E1.cx = E.cx ∧ E1.row = E.row ∧ E1.numRows = E.numRows ∧ 0 ≤ E1.cy ∧
      E1.rowOffset = E.rowOffset ∧ E1.screenRows = E.screenRows ∧
      E1.cy = (if key = ARROW_UP then (if E.cy ≠ 0 then E.cy - 1 else E.cy)
        else (if E.cy < E.numRows then E.cy + 1 else E.cy)) := by
  have hs := moveCursorSwitch_vertical key E hk
  have hcy1 : 0 ≤ (if key = ARROW_UP then (if E.cy ≠ 0 then E.cy - 1 else E.cy)
      else (if E.cy < E.numRows then E.cy + 1 else E.cy)) := by
    split_ifs <;> omega
  exact ⟨_, hs, editorMoveCursor_of_switch key E _ hs hcy1 hn, rfl, rfl, rfl, hcy1, rfl, rfl, rfl⟩

/-- C5: a vertical move (`ARROW_UP` or `ARROW_DOWN`) through
`editorMoveCursor`, from a state with `cx >= 0` whose cursor row is not
negative and whose array holds `numRows` rows, returns a state whose `cx` is
the minimum of the previous `cx` and the length of the row at the new `cy`
(0 when the new `cy` is `numRows`); so `cx` never exceeds that length. -/
theorem C5_vertical_move_clamps (key : Int) (E : editorConfig)
    (hk : key = ARROW_UP ∨ key = ARROW_DOWN) (_hcx : 0 ≤ E.cx) (hcy : 0 ≤ E.cy)
    (hn : E.numRows = E.row.length) :
    ∃ E1, editorMoveCursor key E = some E1 ∧
      E1.cx = min E.cx (cursorRowSize E1) ∧
      E1.cx ≤ cursorRowSize E1 ∧
      (E1.cy = E1.numRows → cursorRowSize E1 = 0) ∧
      rowLength E1 = some (cursorRowSize E1) := by
  obtain ⟨E1, _, hm, hcx, hrow, hnum, hcy1, _, _, _⟩ := editorMoveCursor_vertical key E hk hcy hn
  have hn1 : (clampCx E1).numRows = (clampCx E1).row.length := by
    rw [clampCx_numRows, clampCx_row, hnum, hrow]; exact hn
  have hc : (clampCx E1).cx = min E.cx (cursorRowSize (clampCx E1)) := by
    rw [clampCx_cx, cursorRowSize_clampCx, hcx]
  refine ⟨clampCx E1, hm, hc, ?_, ?_, ?_⟩
  · rw [hc]; exact min_le_right _ _
  · intro h
    exact cursorRowSize_of_le _ (by rw [← hn1, ← h])
  · exact rowLength_eq _ (by rw [clampCx_cy]; exact hcy1) hn1

theorem C5_vertical_move_clamps_witness :
    ∃ E1, editorMoveCursor ARROW_DOWN
        { cx := 3, cy := 0, rx := 0, rowOffset := 0, columnOffset := 0, screenRows := 22,
          screenCols := 80, numRows := 2,
          row := [erow.mk 4 4 [97, 98, 99, 100] [97, 98, 99, 100], erow.mk 1 1 [97] [97]],
          filename := none, statusMsg := [], statusMsgTime := 0 } = some E1 ∧
      E1.cx = min (3 : Int) (cursorRowSize E1) ∧
      E1.cx ≤ cursorRowSize E1 ∧
      (E1.cy = E1.numRows → cursorRowSize E1 = 0) ∧
      rowLength E1 = some (cursorRowSize E1) :=
  C5_vertical_move_clamps ARROW_DOWN
    { cx := 3, cy := 0, rx := 0, rowOffset := 0, columnOffset := 0, screenRows := 22,
      screenCols := 80, numRows := 2,
      row := [erow.mk 4 4 [97, 98, 99, 100] [97, 98, 99, 100], erow.mk 1 1 [97] [97]],
      filename := none, statusMsg := [], statusMsgTime := 0 }
    (Or.inr rfl) (by decide) (by decide) (by decide)

/-! ### Scrolling -/

theorem editorScroll_eq (E : editorConfig) :
    editorScroll E = (scrollRx E).map fun rx =>
      { E with rx := rx, rowOffset := scrollOffset E.cy E.rowOffset E.screenRows,
               columnOffset := scrollOffset rx E.columnOffset E.screenCols } := by
  unfold editorScroll scrollRx scrollOffset
  congr 1
  funext rx
  simp only []
  split_ifs <;> rfl

theorem scrollOffset_idem (pos off len : Int) :
    scrollOffset pos (scrollOffset pos off len) len = scrollOffset pos off len := by
  unfold scrollOffset
  split_ifs <;> omega

theorem scrollOffset_visible (pos off len : Int) (h : 1 ≤ len) :
    scrollOffset pos off len ≤ pos ∧ pos < scrollOffset pos off len + len := by
  unfold scrollOffset
  split_ifs <;> omega

theorem scrollRx_isSome (E : editorConfig) (h0 : 0 ≤ E.cy) (hn : E.numRows ≤ E.row.length) :
    ∃ rx, scrollRx E = some rx := by
  unfold scrollRx
  by_cases h : E.cy < E.numRows
  · obtain ⟨r, hr, _⟩ := rowAt_eq_some E E.cy h0 (by omega)
    rw [if_pos h, hr]
    exact ⟨_, rfl⟩
  · rw [if_neg h]
    exact ⟨_, rfl⟩

theorem editorScroll_isSome (E : editorConfig) (h0 : 0 ≤ E.cy) (hn : E.numRows ≤ E.row.length) :
    ∃ E1, editorScroll E = some E1 := by
  obtain ⟨rx, hrx⟩ := scrollRx_isSome E h0 hn
  rw [editorScroll_eq, hrx]
  exact ⟨_, rfl⟩

theorem editorScroll_some (E E1 : editorConfig) (h : editorScroll E = some E1) :
    ∃ rx, scrollRx E = some rx ∧ E1 =
      { E with rx := rx, rowOffset := scrollOffset E.cy E.rowOffset E.screenRows,
               columnOffset := scrollOffset rx E.columnOffset E.screenCols } := by
  rw [editorScroll_eq] at h
  cases hrx : scrollRx E with
  | none => rw [hrx] at h; cases h
  | some rx =>
    rw [hrx] at h
    exact ⟨rx, rfl, (Option.some.inj h).symm⟩

theorem editorScroll_idem (E E1 : editorConfig) (h : editorScroll E = some E1) :
    editorScroll E1 = some E1 := by
  obtain ⟨rx, hrx, hE1⟩ := editorScroll_some E E1 h
  have hrx1 : scrollRx E1 = some rx := by rw [hE1]; exact hrx
  rw [editorScroll_eq, hrx1, hE1]
  simp only [Option.map_some', scrollOffset_idem]

/-- C6: `editorScroll` is idempotent.  Whenever it is defined on a state, a
second call on its result is defined and returns that result unchanged (same
`rowOffset`, `columnOffset`, `rx` and everything else); and it is defined on
every state whose `cy` is not negative and whose array holds at least
`numRows` rows. -/
theorem C6_editorScroll_idempotent (E : editorConfig) :
    (∀ E1, editorScroll E = some E1 →
      editorScroll E1 = some E1 ∧
      ∀ E2, editorScroll E1 = some E2 →
        E2.rowOffset = E1.rowOffset ∧ E2.columnOffset = E1.columnOffset ∧ E2.rx = E1.rx) ∧
    (0 ≤ E.cy → E.numRows ≤ E.row.length → ∃ E1, editorScroll E = some E1) := by
  refine ⟨?_, editorScroll_isSome E⟩
  intro E1 h
  have h1 := editorScroll_idem E E1 h
  refine ⟨h1, ?_⟩
  intro E2 h2
  rw [h1] at h2
  cases h2
  exact ⟨rfl, rfl, rfl⟩

theorem C6_editorScroll_idempotent_witness :
    ∃ E1, editorScroll scrolledSample = some E1 ∧ editorScroll E1 = some E1 ∧
      E1.rowOffset = 1 ∧ E1.columnOffset = 1 ∧ E1.rx = 1 := by
  obtain ⟨E1, h1⟩ := (C6_editorScroll_idempotent scrolledSample).2 (by decide) (by decide)
  refine ⟨E1, h1, ((C6_editorScroll_idempotent scrolledSample).1 E1 h1).1, ?_⟩
  have h2 : editorScroll scrolledSample
      = some { sampleState 1 1 with rx := 1, rowOffset := 1, columnOffset := 1 } := by decide
  rw [h2] at h1
  cases h1
  exact ⟨rfl, rfl, rfl⟩

/-- C7: on a screen of at least one row and one column, `editorScroll` (on a
state whose `cy` is not negative and whose array holds at least `numRows`
rows) leaves the cursor visible: `rowOffset <= cy < rowOffset + screenRows`
and `columnOffset <= rx < columnOffset + screenCols`; so the cursor position
that `editorRefreshScreen` emits lies in `1..screenRows` and
`1..screenCols`. -/
theorem C7_cursor_visible (E : editorConfig) (hr : 1 ≤ E.screenRows) (hc : 1 ≤ E.screenCols)
    (h0 : 0 ≤ E.cy) (hn : E.numRows ≤ E.row.length) :
    ∃ E1, editorScroll E = some E1 ∧
      editorRefreshScreenCursor E = some (E1, cursorPosition E1) ∧
      E1.cy = E.cy ∧ E1.screenRows = E.screenRows ∧ E1.screenCols = E.screenCols ∧
      scrollRx E = some E1.rx ∧
      (E1.rowOffset ≤ E1.cy ∧ E1.cy < E1.rowOffset + E1.screenRows) ∧
      (E1.columnOffset ≤ E1.rx ∧ E1.rx < E1.columnOffset + E1.screenCols) ∧
      (1 ≤ (cursorPosition E1).1 ∧ (cursorPosition E1).1 ≤ E1.screenRows) ∧
      (1 ≤ (cursorPosition E1).2 ∧ (cursorPosition E1).2 ≤ E1.screenCols) := by
  obtain ⟨E1, h1⟩ := editorScroll_isSome E h0 hn
  obtain ⟨rx, hrx, rfl⟩ := editorScroll_some E E1 h1
  have hv := scrollOffset_visible E.cy E.rowOffset E.screenRows hr
  have hw := scrollOffset_visible rx E.columnOffset E.screenCols hc
  refine ⟨_, h1, ?_, rfl, rfl, rfl, hrx, hv, hw, ?_, ?_⟩
  · unfold editorRefreshScreenCursor
    rw [h1]
    rfl
  · simp only [cursorPosition]
    omega
  · simp only [cursorPosition]
    omega

theorem C7_cursor_visible_witness :
    ∃ E1, editorScroll scrolledSample = some E1 ∧
      (E1.rowOffset ≤ E1.cy ∧ E1.cy < E1.rowOffset + 3) ∧
      (E1.columnOffset ≤ E1.rx ∧ E1.rx < E1.columnOffset + 80) ∧
      (1 ≤ (cursorPosition E1).1 ∧ (cursorPosition E1).1 ≤ 3) ∧
      (1 ≤ (cursorPosition E1).2 ∧ (cursorPosition E1).2 ≤ 80) := by
  obtain ⟨E1, h1, _, _, hr, hc, _, hv, hw, hp1, hp2⟩ :=
    C7_cursor_visible scrolledSample (by decide) (by decide) (by decide) (by decide)
  rw [hr] at hv hp1
  rw [hc] at hw hp2
  exact ⟨E1, h1, hv, hw, hp1, hp2⟩

/-! ### The cursor range invariant -/

theorem cursorRowSize_nonneg (E : editorConfig) (hs : ∀ r ∈ E.row, 0 ≤ r.size) :
    0 ≤ cursorRowSize E := by
  unfold cursorRowSize
  by_cases h : 0 ≤ E.cy ∧ E.cy < E.row.length
  · obtain ⟨r, hr, hmem⟩ := rowAt_eq_some E E.cy h.1 h.2
    rw [hr]
    exact hs r hmem
  · have hnone : rowAt E E.cy = none := by
      unfold rowAt
      by_cases hneg : E.cy < 0
      · rw [if_pos hneg]
      · rw [if_neg hneg]
        exact List.getElem?_eq_none (by omega)
    rw [hnone]

theorem clampCx_withoutCursor (E : editorConfig) :
    withoutCursor (clampCx E) = withoutCursor E := by
  unfold clampCx; split_ifs <;> rfl

theorem clampCx_inRange (E : editorConfig) (h : CursorOnDoc E) : CursorInRange (clampCx E) := by
  have hsz : 0 ≤ cursorRowSize E := cursorRowSize_nonneg E h.sizes
  refine ⟨⟨?_, ?_, ?_, ?_, ?_⟩, ?_⟩
  · rw [clampCx_numRows, clampCx_row]; exact h.rows
  · rw [clampCx_row]; exact h.sizes
  · rw [clampCx_cy]; exact h.cy_nonneg
  · rw [clampCx_cy, clampCx_numRows]; exact h.cy_le
  · rw [clampCx_cx]; exact le_min h.cx_nonneg hsz
  · rw [clampCx_cx, cursorRowSize_clampCx]; exact min_le_right _ _

theorem moveCursorSwitch_onDoc (key : Int) (E : editorConfig) (h : CursorOnDoc E) :
    ∃ E1, moveCursorSwitch key E = some E1 ∧ CursorOnDoc E1 ∧
      withoutCursor E1 = withoutCursor E := by
  obtain ⟨hn, hs, hcy0, hcy1, hcx⟩ := h
  unfold moveCursorSwitch
  by_cases kl : key = ARROW_LEFT
  · rw [if_pos kl]
    by_cases c1 : E.cx ≠ 0
    · rw [if_pos c1]
      exact ⟨_, rfl, ⟨hn, hs, hcy0, hcy1, show 0 ≤ E.cx - 1 by omega⟩, rfl⟩
    · rw [if_neg c1]
      by_cases c2 : E.cy > 0
      · obtain ⟨r, hr, hmem⟩ := rowAt_eq_some E (E.cy - 1) (by omega) (by omega)
        rw [if_pos c2, hr]
        exact ⟨_, rfl, ⟨hn, hs, show 0 ≤ E.cy - 1 by omega, show E.cy - 1 ≤ E.numRows by omega,
          hs r hmem⟩, rfl⟩
      · rw [if_neg c2]
        exact ⟨_, rfl, ⟨hn, hs, hcy0, hcy1, hcx⟩, rfl⟩
  rw [if_neg kl]
  by_cases kd : key = ARROW_DOWN
  · rw [if_pos kd]
    by_cases c1 : E.cy < E.numRows
    · rw [if_pos c1]
      exact ⟨_, rfl, ⟨hn, hs, show 0 ≤ E.cy + 1 by omega, show E.cy + 1 ≤ E.numRows by omega,
        hcx⟩, rfl⟩
    · rw [if_neg c1]
      exact ⟨_, rfl, ⟨hn, hs, hcy0, hcy1, hcx⟩, rfl⟩
  rw [if_neg kd]
  by_cases ku : key = ARROW_UP
  · rw [if_pos ku]
    by_cases c1 : E.cy ≠ 0
    · rw [if_pos c1]
      exact ⟨_, rfl, ⟨hn, hs, show 0 ≤ E.cy - 1 by omega, show E.cy - 1 ≤ E.numRows by omega,
        hcx⟩, rfl⟩
    · rw [if_neg c1]
      exact ⟨_, rfl, ⟨hn, hs, hcy0, hcy1, hcx⟩, rfl⟩
  rw [if_neg ku]
  by_cases kr : key = ARROW_RIGHT
  · rw [if_pos kr]
    by_cases c1 : E.cy ≥ E.numRows
    · rw [if_pos c1]
      exact ⟨_, rfl, ⟨hn, hs, hcy0, hcy1, hcx⟩, rfl⟩
    · obtain ⟨r, hr, _⟩ := rowAt_eq_some E E.cy hcy0 (by omega)
      rw [if_neg c1, hr]
      refine ⟨_, rfl, ?_⟩
      simp only []
      split_ifs
      · exact ⟨⟨hn, hs, hcy0, hcy1, show 0 ≤ E.cx + 1 by omega⟩, rfl⟩
      · exact ⟨⟨hn, hs, show 0 ≤ E.cy + 1 by omega, show E.cy + 1 ≤ E.numRows by omega,
          le_refl _⟩, rfl⟩
      · exact ⟨⟨hn, hs, hcy0, hcy1, hcx⟩, rfl⟩
  rw [if_neg kr]
  exact ⟨_, rfl, ⟨hn, hs, hcy0, hcy1, hcx⟩, rfl⟩

theorem editorMoveCursor_inRange (key : Int) (E : editorConfig) (h : CursorOnDoc E) :
    ∃ E1 E2, moveCursorSwitch key E = some E1 ∧ editorMoveCursor key E = some E2 ∧
      E2 = clampCx E1 ∧ CursorInRange E2 ∧ withoutCursor E2 = withoutCursor E := by
  obtain ⟨E1, hsw, hon, hfr⟩ := moveCursorSwitch_onDoc key E h
  refine ⟨E1, clampCx E1, hsw, editorMoveCursor_of_switch key E E1 hsw hon.cy_nonneg hon.rows,
    rfl, clampCx_inRange E1 hon, ?_⟩
  rw [clampCx_withoutCursor, hfr]

theorem moveTimes_inRange (key : Int) (n : Nat) (E : editorConfig) (h : CursorOnDoc E) :
    ∃ E2, moveTimes key n E = some E2 ∧ CursorOnDoc E2 ∧ (0 < n → CursorInRange E2) ∧
      withoutCursor E2 = withoutCursor E := by
  induction n generalizing E with
  | zero => exact ⟨E, rfl, h, fun hn => absurd hn (lt_irrefl 0), rfl⟩
  | succ k ih =>
    obtain ⟨_, E1, _, hm, _, hin, hfr⟩ := editorMoveCursor_inRange key E h
    obtain ⟨E2, hm2, hon2, hin2, hfr2⟩ := ih E1 hin.onDoc
    refine ⟨E2, ?_, hon2, ?_, hfr2.trans hfr⟩
    · simp only [moveTimes, hm, Option.some_bind, hm2]
    · intro _
      rcases Nat.eq_zero_or_pos k with hk | hk
      · subst hk
        simp only [moveTimes] at hm2
        cases hm2
        exact hin
      · exact hin2 hk

theorem editorUpdateRow_size (r r1 : erow) (h : editorUpdateRow r = some r1) :
    r1.size = r.size ∧ r1.chars = r.chars := by
  unfold editorUpdateRow at h
  simp only [Option.bind_eq_some, Option.map_eq_some'] at h
  obtain ⟨st, _, buf1, _, rfl⟩ := h
  exact ⟨rfl, rfl⟩

theorem editorAppendRow_some (s : List Byte) (len : Nat) (E E1 : editorConfig)
    (h : editorAppendRow s len E = some E1) :
    ∃ r1, r1.size = (len : Int) ∧ r1.chars = s.take len ∧
      E1 = { E with row := E.row ++ [r1], numRows := E.numRows + 1 } := by
  unfold editorAppendRow at h
  simp only [Option.map_eq_some'] at h
  obtain ⟨r1, hr1, rfl⟩ := h
  obtain ⟨hsz, hch⟩ := editorUpdateRow_size _ r1 hr1
  exact ⟨r1, hsz, hch, rfl⟩

theorem editorAppendRow_inv (sr : Int) (s : List Byte) (len : Nat) (E E1 : editorConfig)
    (h : editorAppendRow s len E = some E1)
    (hE : SessionInv sr E ∧ E.cx = 0 ∧ E.cy = 0) :
    SessionInv sr E1 ∧ E1.cx = 0 ∧ E1.cy = 0 := by
  obtain ⟨r1, hsz, _, rfl⟩ := editorAppendRow_some s len E E1 h
  obtain ⟨⟨⟨⟨hn, hs, _, _, _⟩, _⟩, hro, hsr⟩, hcx, hcy⟩ := hE
  have hs1 : ∀ r ∈ E.row ++ [r1], 0 ≤ r.size := by
    intro r hr
    rcases List.mem_append.mp hr with hr | hr
    · exact hs r hr
    · rw [List.mem_singleton.mp hr, hsz]
      exact Int.ofNat_nonneg len
  have hn1 : E.numRows + 1 = ((E.row ++ [r1]).length : Int) := by
    rw [List.length_append, List.length_singleton, hn]
    push_cast
    rfl
  refine ⟨⟨⟨⟨hn1, hs1, ?_, ?_, ?_⟩, ?_⟩, hro, hsr⟩, hcx, hcy⟩
  · show 0 ≤ E.cy
    omega
  · show E.cy ≤ E.numRows + 1
    omega
  · show 0 ≤ E.cx
    omega
  · show E.cx ≤ cursorRowSize _
    rw [hcx]
    exact cursorRowSize_nonneg _ hs1

theorem foldlM_appendRow_inv (sr : Int) (lines : List (List Byte)) (E E1 : editorConfig)
    (h : lines.foldlM (fun E1 line => editorAppendRow line (stripLineEnd line line.length) E1) E
      = some E1)
    (hE : SessionInv sr E ∧ E.cx = 0 ∧ E.cy = 0) :
    SessionInv sr E1 ∧ E1.cx = 0 ∧ E1.cy = 0 := by
  induction lines generalizing E with
  | nil =>
    simp only [List.foldlM_nil] at h
    cases h
    exact hE
  | cons line rest ih =>
    simp only [List.foldlM_cons, Option.bind_eq_bind, Option.bind_eq_some] at h
    obtain ⟨Em, hm, hrest⟩ := h
    exact ih Em hrest (editorAppendRow_inv sr line _ E Em hm hE)

theorem initEditor_inv (wsRows wsCols : Int) :
    SessionInv (wsRows - 2) (initEditor wsRows wsCols) ∧
      (initEditor wsRows wsCols).cx = 0 ∧ (initEditor wsRows wsCols).cy = 0 := by
  refine ⟨⟨⟨⟨rfl, ?_, le_refl _, le_refl _, le_refl _⟩, ?_⟩, le_refl _, rfl⟩, rfl, rfl⟩
  · intro r hr
    cases hr
  · exact le_refl _

theorem startup_inv (wsRows wsCols : Int) (file : Option (List Byte × List (List Byte)))
    (now : Int) (E : editorConfig) (h : startup wsRows wsCols file now = some E) :
    SessionInv (wsRows - 2) E := by
  unfold startup at h
  simp only [Option.map_eq_some'] at h
  obtain ⟨E0, h0, rfl⟩ := h
  have hinv : SessionInv (wsRows - 2) E0 := by
    cases file with
    | none =>
      simp only [Option.some.injEq] at h0
      subst h0
      exact (initEditor_inv wsRows wsCols).1
    | some f =>
      obtain ⟨name, lines⟩ := f
      simp only [editorOpen] at h0
      refine (foldlM_appendRow_inv (wsRows - 2) lines _ E0 h0 ?_).1
      obtain ⟨⟨⟨⟨a, b, c, d, e⟩, f⟩, g, k⟩, l, m⟩ := initEditor_inv wsRows wsCols
      exact ⟨⟨⟨⟨a, b, c, d, e⟩, f⟩, g, k⟩, l, m⟩
  obtain ⟨⟨⟨a, b, c, d, e⟩, f⟩, g, k⟩ := hinv
  exact ⟨⟨⟨a, b, c, d, e⟩, f⟩, g, k⟩

theorem rowOffset_of_withoutCursor (E F : editorConfig)
    (h : withoutCursor F = withoutCursor E) : F.rowOffset = E.rowOffset := by
  have h1 := congrArg editorConfig.rowOffset h
  exact h1

theorem screenRows_of_withoutCursor (E F : editorConfig)
    (h : withoutCursor F = withoutCursor E) : F.screenRows = E.screenRows := by
  have h1 := congrArg editorConfig.screenRows h
  exact h1

theorem numRows_of_withoutCursor (E F : editorConfig)
    (h : withoutCursor F = withoutCursor E) : F.numRows = E.numRows := by
  have h1 := congrArg editorConfig.numRows h
  exact h1

theorem row_of_withoutCursor (E F : editorConfig)
    (h : withoutCursor F = withoutCursor E) : F.row = E.row := by
  have h1 := congrArg editorConfig.row h
  exact h1

theorem scrollOffset_nonneg (pos off len : Int) (hp : 0 ≤ pos) (ho : 0 ≤ off) (hl : 1 ≤ len) :
    0 ≤ scrollOffset pos off len := by
  unfold scrollOffset
  split_ifs <;> omega

theorem editorScroll_inv (sr : Int) (E E1 : editorConfig) (hsr : 1 ≤ sr) (hE : SessionInv sr E)
    (h : editorScroll E = some E1) :
    SessionInv sr E1 ∧ E1.rowOffset ≤ E1.cy ∧ E1.cx = E.cx ∧ E1.cy = E.cy := by
  obtain ⟨rx, _, rfl⟩ := editorScroll_some E E1 h
  obtain ⟨⟨⟨a, b, c, d, e⟩, f⟩, g, k⟩ := hE
  have hvis := scrollOffset_visible E.cy E.rowOffset E.screenRows (by omega)
  exact ⟨⟨⟨⟨a, b, c, d, e⟩, f⟩, scrollOffset_nonneg _ _ _ c g (by omega), k⟩, hvis.1, rfl, rfl⟩

theorem editorProcessKey_inv (sr : Int) (c : Int) (E : editorConfig) (hsr : 1 ≤ sr)
    (hE : SessionInv sr E) (hro : E.rowOffset ≤ E.cy) :
    (c = CTRL_KEY 113 ∧ editorProcessKey c E = KeyOutcome.exited 0) ∨
    ∃ E2, editorProcessKey c E = KeyOutcome.running E2 ∧ SessionInv sr E2 := by
  obtain ⟨⟨⟨hn, hs, hcy0, hcy1, hcx0⟩, hcx1⟩, hro0, hscr⟩ := hE
  have hE : SessionInv sr E := ⟨⟨⟨hn, hs, hcy0, hcy1, hcx0⟩, hcx1⟩, hro0, hscr⟩
  unfold editorProcessKey
  by_cases kq : c = CTRL_KEY 113
  · rw [if_pos kq]
    exact Or.inl ⟨kq, rfl⟩
  rw [if_neg kq]
  right
  by_cases kh : c = HOME_KEY
  · rw [if_pos kh]
    refine ⟨_, rfl, ⟨⟨⟨hn, hs, hcy0, hcy1, le_refl _⟩, ?_⟩, hro0, hscr⟩⟩
    exact cursorRowSize_nonneg _ hs
  rw [if_neg kh]
  by_cases ke : c = END_KEY
  · rw [if_pos ke]
    by_cases c1 : E.cy < E.numRows
    · obtain ⟨r, hr, hmem⟩ := rowAt_eq_some E E.cy hcy0 (by omega)
      rw [if_pos c1, hr]
      refine ⟨_, rfl, ⟨⟨⟨hn, hs, hcy0, hcy1, hs r hmem⟩, ?_⟩, hro0, hscr⟩⟩
      show r.size ≤ cursorRowSize _
      have hcr : cursorRowSize { E with cx := r.size } = r.size := by
        unfold cursorRowSize
        show (match rowAt E E.cy with | some r => r.size | none => 0) = r.size
        rw [hr]
      rw [hcr]
    · rw [if_neg c1]
      exact ⟨E, rfl, hE⟩
  rw [if_neg ke]
  by_cases kp : c = PAGE_UP ∨ c = PAGE_DOWN
  · rw [if_pos kp]
    simp only []
    have hnneg : ¬ E.screenRows < 0 := by omega
    have hpos : 0 < E.screenRows.toNat := by omega
    by_cases ku : c = PAGE_UP
    · simp only [if_pos ku]
      rw [if_neg hnneg]
      have hon : CursorOnDoc { E with cy := E.rowOffset } :=
        ⟨hn, hs, hro0, show E.rowOffset ≤ E.numRows by omega, hcx0⟩
      obtain ⟨E2, hm, _, hin, hfr⟩ := moveTimes_inRange ARROW_UP E.screenRows.toNat _ hon
      rw [hm]
      refine ⟨E2, rfl, ⟨hin hpos, ?_, ?_⟩⟩
      · rw [show E2.rowOffset = E.rowOffset from rowOffset_of_withoutCursor _ E2 hfr]
        exact hro0
      · rw [show E2.screenRows = E.screenRows from screenRows_of_withoutCursor _ E2 hfr]
        exact hscr
    · simp only [if_neg ku]
      by_cases cgt : E.rowOffset + E.screenRows - 1 > E.numRows
      · simp only [if_pos cgt]
        rw [if_neg hnneg]
        have hon : CursorOnDoc { E with cy := E.numRows } :=
          ⟨hn, hs, show 0 ≤ E.numRows by omega, le_refl _, hcx0⟩
        obtain ⟨E2, hm, _, hin, hfr⟩ := moveTimes_inRange ARROW_DOWN E.screenRows.toNat _ hon
        refine ⟨E2, ?_, ⟨hin hpos, ?_, ?_⟩⟩
        · exact congrArg KeyOutcome.ofOption hm
        · rw [show E2.rowOffset = E.rowOffset from rowOffset_of_withoutCursor _ E2 hfr]
          exact hro0
        · rw [show E2.screenRows = E.screenRows from screenRows_of_withoutCursor _ E2 hfr]
          exact hscr
      · simp only [if_neg cgt]
        rw [if_neg hnneg]
        have hon : CursorOnDoc { E with cy := E.rowOffset + E.screenRows - 1 } :=
          ⟨hn, hs, show 0 ≤ E.rowOffset + E.screenRows - 1 by omega,
            show E.rowOffset + E.screenRows - 1 ≤ E.numRows by omega, hcx0⟩
        obtain ⟨E2, hm, _, hin, hfr⟩ := moveTimes_inRange ARROW_DOWN E.screenRows.toNat _ hon
        refine ⟨E2, ?_, ⟨hin hpos, ?_, ?_⟩⟩
        · exact congrArg KeyOutcome.ofOption hm
        · rw [show E2.rowOffset = E.rowOffset from rowOffset_of_withoutCursor _ E2 hfr]
          exact hro0
        · rw [show E2.screenRows = E.screenRows from screenRows_of_withoutCursor _ E2 hfr]
          exact hscr
  rw [if_neg kp]
  by_cases ka : c = ARROW_LEFT ∨ c = ARROW_DOWN ∨ c = ARROW_UP ∨ c = ARROW_RIGHT
  · rw [if_pos ka]
    obtain ⟨_, E2, _, hm, _, hin, hfr⟩ := editorMoveCursor_inRange c E ⟨hn, hs, hcy0, hcy1, hcx0⟩
    rw [hm]
    refine ⟨E2, rfl, ⟨hin, ?_, ?_⟩⟩
    · rw [show E2.rowOffset = E.rowOffset from rowOffset_of_withoutCursor _ E2 hfr]
      exact hro0
    · rw [show E2.screenRows = E.screenRows from screenRows_of_withoutCursor _ E2 hfr]
      exact hscr
  rw [if_neg ka]
  exact ⟨E, rfl, hE⟩

theorem reachable_inv (wsRows wsCols : Int) (file : Option (List Byte × List (List Byte)))
    (now : Int) (E : editorConfig) (hsr : 1 ≤ wsRows - 2)
    (h : Reachable wsRows wsCols file now E) : SessionInv (wsRows - 2) E := by
  induction h with
  | start E h => exact startup_inv wsRows wsCols file now E h
  | pass E E1 E2 c _ hs hk ih =>
    obtain ⟨hinv1, hro, _, _⟩ := editorScroll_inv (wsRows - 2) E E1 hsr ih hs
    rcases editorProcessKey_inv (wsRows - 2) c E1 hsr hinv1 hro with ⟨_, hq⟩ | ⟨E3, h3, hinv3⟩
    · rw [hq] at hk
      cases hk
    · rw [h3] at hk
      cases hk
      exact hinv3

/-- C8: every state at the top of the session loop (after `startup`, and after
any number of passes of `editorScroll` followed by one key handled without
quitting) on a screen with `screenRows >= 1` satisfies the cursor range
invariant: `0 <= cy <= numRows`, `0 <= cx <= size` of the row at `cy`, and
`cx = 0` when `cy = numRows`.  The next pass is defined as well: `editorScroll`
returns a state on which every key either quits or is handled. -/
theorem C8_cursor_range_invariant (wsRows wsCols : Int)
    (file : Option (List Byte × List (List Byte))) (now : Int) (E : editorConfig)
    (hsr : 1 ≤ wsRows - 2) (h : Reachable wsRows wsCols file now E) :
    E.screenRows = wsRows - 2 ∧ E.numRows = E.row.length ∧
    (0 ≤ E.cy ∧ E.cy ≤ E.numRows) ∧
    (0 ≤ E.cx ∧ E.cx ≤ cursorRowSize E) ∧
    (E.cy < E.numRows → ∃ r, rowAt E E.cy = some r ∧ E.cx ≤ r.size) ∧
    (E.cy = E.numRows → E.cx = 0) ∧
    (∃ E1, editorScroll E = some E1 ∧
      ∀ c, (c = CTRL_KEY 113 ∧ editorProcessKey c E1 = KeyOutcome.exited 0) ∨
        ∃ E2, editorProcessKey c E1 = KeyOutcome.running E2) := by
  have hinv := reachable_inv wsRows wsCols file now E hsr h
  obtain ⟨⟨⟨hn, hs, hcy0, hcy1, hcx0⟩, hcx1⟩, hro0, hscr⟩ := hinv
  refine ⟨hscr, hn, ⟨hcy0, hcy1⟩, ⟨hcx0, hcx1⟩, ?_, ?_, ?_⟩
  · intro hlt
    obtain ⟨r, hr, _⟩ := rowAt_eq_some E E.cy hcy0 (by omega)
    refine ⟨r, hr, ?_⟩
    have hc : cursorRowSize E = r.size := by
      unfold cursorRowSize
      rw [hr]
    rw [← hc]
    exact hcx1
  · intro heq
    have hz : cursorRowSize E = 0 := cursorRowSize_of_le E (by omega)
    omega
  · obtain ⟨E1, h1⟩ := editorScroll_isSome E hcy0 (le_of_eq hn)
    refine ⟨E1, h1, ?_⟩
    obtain ⟨hinv1, hro, _, _⟩ := editorScroll_inv (wsRows - 2) E E1 hsr
      ⟨⟨⟨hn, hs, hcy0, hcy1, hcx0⟩, hcx1⟩, hro0, hscr⟩ h1
    intro c
    rcases editorProcessKey_inv (wsRows - 2) c E1 hsr hinv1 hro with hq | ⟨E2, h2, _⟩
    · exact Or.inl hq
    · exact Or.inr ⟨E2, h2⟩

theorem sample_reachable :
    Reachable 5 80 (some ([107], [[97, 98, 9, 10], [99, 10]])) 0 (sampleState 3 0) :=
  Reachable.pass (sampleState 0 0) (sampleState 0 0) (sampleState 3 0) END_KEY
    (Reachable.start (sampleState 0 0) (by decide)) (by decide) (by decide)

theorem C8_cursor_range_invariant_witness :
    (sampleState 3 0).screenRows = 5 - 2 ∧
    (sampleState 3 0).numRows = (sampleState 3 0).row.length ∧
    (0 ≤ (sampleState 3 0).cy ∧ (sampleState 3 0).cy ≤ (sampleState 3 0).numRows) ∧
    (0 ≤ (sampleState 3 0).cx ∧ (sampleState 3 0).cx ≤ cursorRowSize (sampleState 3 0)) ∧
    ((sampleState 3 0).cy < (sampleState 3 0).numRows →
      ∃ r, rowAt (sampleState 3 0) (sampleState 3 0).cy = some r ∧ (sampleState 3 0).cx ≤ r.size) ∧
    ((sampleState 3 0).cy = (sampleState 3 0).numRows → (sampleState 3 0).cx = 0) ∧
    (∃ E1, editorScroll (sampleState 3 0) = some E1 ∧
      ∀ c, (c = CTRL_KEY 113 ∧ editorProcessKey c E1 = KeyOutcome.exited 0) ∨
        ∃ E2, editorProcessKey c E1 = KeyOutcome.running E2) :=
  C8_cursor_range_invariant 5 80 (some ([107], [[97, 98, 9, 10], [99, 10]])) 0 (sampleState 3 0)
    (by decide) sample_reachable

/-! ### Right arrow and page down -/

theorem cursorRowSize_of_rowAt (E : editorConfig) (r : erow) (h : rowAt E E.cy = some r) :
    cursorRowSize E = r.size := by
  unfold cursorRowSize
  rw [h]

theorem moveCursorSwitch_right (E : editorConfig) (r : erow) (hlt : E.cy < E.numRows)
    (hr : rowAt E E.cy = some r) :
    moveCursorSwitch ARROW_RIGHT E = some
      (if E.cx < r.size then { E with cx := E.cx + 1 }
       else if E.cx = r.size then { E with cy := E.cy + 1, cx := 0 }
       else E) := by
  unfold moveCursorSwitch
  rw [if_neg (by decide), if_neg (by decide), if_neg (by decide), if_pos rfl,
    if_neg (by omega), hr]
  rfl

/-- C9: on a row of the document (`0 <= cy < numRows`, the array holding
`numRows` rows of non-negative size), `editorMoveCursor(ARROW_RIGHT)` with
`cx` equal to the length of the row at `cy` moves the cursor to
`(cy + 1, 0)`; with `cx` strictly less than that length it only increments
`cx` and leaves `cy` unchanged.  Nothing but the cursor changes. -/
theorem C9_arrow_right (E : editorConfig) (h0 : 0 ≤ E.cy) (hlt : E.cy < E.numRows)
    (hn : E.numRows = E.row.length) (hs : ∀ r ∈ E.row, 0 ≤ r.size) :
    (∃ r, rowAt E E.cy = some r ∧ cursorRowSize E = r.size) ∧
    (E.cx = cursorRowSize E →
      ∃ E1, editorMoveCursor ARROW_RIGHT E = some E1 ∧ E1.cy = E.cy + 1 ∧ E1.cx = 0 ∧
        withoutCursor E1 = withoutCursor E) ∧
    (E.cx < cursorRowSize E →
      ∃ E1, editorMoveCursor ARROW_RIGHT E = some E1 ∧ E1.cx = E.cx + 1 ∧ E1.cy = E.cy ∧
        withoutCursor E1 = withoutCursor E) := by
  obtain ⟨r, hr, _⟩ := rowAt_eq_some E E.cy h0 (by omega)
  have hc := cursorRowSize_of_rowAt E r hr
  have hsw := moveCursorSwitch_right E r hlt hr
  refine ⟨⟨r, hr, hc⟩, ?_, ?_⟩
  · intro hcx
    rw [hc] at hcx
    rw [if_neg (by omega), if_pos hcx] at hsw
    have hm := editorMoveCursor_of_switch ARROW_RIGHT E _ hsw (show 0 ≤ E.cy + 1 by omega) hn
    have hnn : 0 ≤ cursorRowSize { E with cy := E.cy + 1, cx := 0 } :=
      cursorRowSize_nonneg _ hs
    have hcl : clampCx { E with cy := E.cy + 1, cx := 0 } = { E with cy := E.cy + 1, cx := 0 } := by
      unfold clampCx
      rw [if_neg (not_lt.mpr hnn)]
    rw [hcl] at hm
    exact ⟨_, hm, rfl, rfl, rfl⟩
  · intro hcx
    rw [hc] at hcx
    rw [if_pos hcx] at hsw
    have hm := editorMoveCursor_of_switch ARROW_RIGHT E _ hsw h0 hn
    have hcs : cursorRowSize { E with cx := E.cx + 1 } = r.size :=
      (cursorRowSize_congr E { E with cx := E.cx + 1 } rfl rfl).trans hc
    have hcl : clampCx { E with cx := E.cx + 1 } = { E with cx := E.cx + 1 } := by
      unfold clampCx
      rw [if_neg]
      rw [hcs]
      show ¬ (E.cx + 1 > r.size)
      omega
    rw [hcl] at hm
    exact ⟨_, hm, rfl, rfl, rfl⟩

theorem C9_arrow_right_witness :
    (rightSample.cx = 5 ∧ cursorRowSize rightSample = 5) ∧
    ∃ E1, editorMoveCursor ARROW_RIGHT rightSample = some E1 ∧ E1.cy = 1 ∧ E1.cx = 0 := by
  obtain ⟨_, hend, _⟩ :=
    C9_arrow_right rightSample (by decide) (by decide) (by decide) (by decide)
  obtain ⟨E1, h1, hcy, hcx, _⟩ := hend (by decide)
  exact ⟨⟨by decide, by decide⟩, E1, h1, hcy.trans (by decide), hcx⟩

theorem moveTimes_down (n : Nat) (E : editorConfig) (h0 : 0 ≤ E.cy) (h1 : E.cy ≤ E.numRows)
    (hn : E.numRows = E.row.length) :
    ∃ E2, moveTimes ARROW_DOWN n E = some E2 ∧ E2.cy = min E.numRows (E.cy + n) ∧
      E2.numRows = E.numRows := by
  induction n generalizing E with
  | zero =>
    refine ⟨E, rfl, ?_, rfl⟩
    rw [min_eq_right]
    · simp
    · simpa using h1
  | succ k ih =>
    obtain ⟨E1, _, hm, _, hrow, hnum, hcy1, _, _, hcy⟩ :=
      editorMoveCursor_vertical ARROW_DOWN E (Or.inr rfl) h0 hn
    rw [if_neg (by decide)] at hcy
    have hcyc : (clampCx E1).cy = E1.cy := clampCx_cy E1
    have hnumc : (clampCx E1).numRows = E.numRows := by rw [clampCx_numRows, hnum]
    have hrowc : (clampCx E1).row = E.row := by rw [clampCx_row, hrow]
    have hle : (clampCx E1).cy ≤ (clampCx E1).numRows := by
      rw [hcyc, hnumc, hcy]
      split_ifs <;> omega
    obtain ⟨E2, hm2, hcy2, hnum2⟩ := ih (clampCx E1) (by rw [hcyc]; exact hcy1) hle
      (by rw [hnumc, hrowc]; exact hn)
    refine ⟨E2, ?_, ?_, hnum2.trans hnumc⟩
    · simp only [moveTimes, hm, Option.some_bind, hm2]
    · rw [hcy2, hcyc, hnumc, hcy]
      push_cast
      split_ifs with hlt
      · congr 1
        ring
      · have he : E.cy = E.numRows := by omega
        rw [he, min_eq_left (by omega), min_eq_left (by omega)]

/-- C10: with `screenRows >= 1` and `rowOffset >= 0` (the array holding
`numRows` rows), handling `PAGE_DOWN` sets `cy` to the bottom row of the
viewport, `min(rowOffset + screenRows - 1, numRows)`, applies `screenRows`
single moves `ARROW_DOWN`, and ends with
`cy = min(numRows, min(rowOffset + screenRows - 1, numRows) + screenRows)`. -/
theorem C10_page_down (E : editorConfig) (hsr : 1 ≤ E.screenRows) (hro : 0 ≤ E.rowOffset)
    (hn : E.numRows = E.row.length) :
    editorProcessKey PAGE_DOWN E = KeyOutcome.ofOption
      (moveTimes ARROW_DOWN E.screenRows.toNat
        { E with cy := min (E.rowOffset + E.screenRows - 1) E.numRows }) ∧
    ∃ E2, editorProcessKey PAGE_DOWN E = KeyOutcome.running E2 ∧
      E2.cy = min E.numRows (min (E.rowOffset + E.screenRows - 1) E.numRows + E.screenRows) := by
  have hsnap : editorProcessKey PAGE_DOWN E = KeyOutcome.ofOption
      (moveTimes ARROW_DOWN E.screenRows.toNat
        { E with cy := min (E.rowOffset + E.screenRows - 1) E.numRows }) := by
    unfold editorProcessKey
    rw [if_neg (by decide), if_neg (by decide), if_neg (by decide), if_pos (Or.inr rfl)]
    simp only [if_neg (show ¬ PAGE_DOWN = PAGE_UP by decide)]
    by_cases cgt : E.rowOffset + E.screenRows - 1 > E.numRows
    · simp only [if_pos cgt]
      rw [if_neg (by omega), min_eq_right (le_of_lt cgt)]
    · simp only [if_neg cgt]
      rw [if_neg (by omega), min_eq_left (not_lt.mp cgt)]
  refine ⟨hsnap, ?_⟩
  have hnn : (0 : Int) ≤ E.numRows := by omega
  obtain ⟨E2, hm, hcy, _⟩ := moveTimes_down E.screenRows.toNat
    { E with cy := min (E.rowOffset + E.screenRows - 1) E.numRows }
    (le_min (by omega) hnn) (min_le_right _ _) hn
  refine ⟨E2, ?_, ?_⟩
  · rw [hsnap, hm]
    rfl
  · rw [hcy]
    have ht : ((E.screenRows.toNat : Nat) : Int) = E.screenRows := Int.toNat_of_nonneg (by omega)
    rw [ht]

theorem C10_page_down_witness :
    min (pageSample.rowOffset + pageSample.screenRows - 1) pageSample.numRows = 19 ∧
    ∃ E2, editorProcessKey PAGE_DOWN pageSample = KeyOutcome.running E2 ∧ E2.cy = 39 :=
  ⟨by decide, (C10_page_down pageSample (by decide) (by decide) (by decide)).2.imp
    fun _ h => ⟨h.1, h.2.trans (by decide)⟩⟩

/-! ### Tab expansion into the render buffer -/

theorem firstBytes_succ (row : erow) (n : Nat) :
    row.firstBytes (n + 1) = row.firstBytes n ++ [row.charAt n] := by
  unfold erow.firstBytes
  rw [List.range_succ, List.map_append]
  rfl

theorem firstBytes_eq_take (row : erow) (n : Nat) (h : n ≤ row.chars.length) :
    row.firstBytes n = row.chars.take n := by
  induction n with
  | zero => rfl
  | succ k ih =>
    have hk : k < row.chars.length := h
    rw [firstBytes_succ, ih (le_of_lt hk), List.take_succ]
    congr 1
    unfold erow.charAt
    rw [List.getD_eq_getElem _ _ hk, List.getElem?_eq_getElem hk]
    rfl

theorem firstBytes_length (row : erow) : row.firstBytes row.chars.length = row.chars := by
  rw [firstBytes_eq_take row _ (le_refl _), List.take_length]

theorem expandTabs_append_singleton (cs : List Byte) (c : Byte) :
    expandTabs (cs ++ [c]) = tabStep (expandTabs cs) c := by
  unfold expandTabs
  rw [List.foldl_append]
  rfl

theorem tabStep_length (out : List Byte) (c : Byte) :
    (tabStep out c).length =
      if c = 9 then out.length + (8 - out.length % 8) else out.length + 1 := by
  unfold tabStep
  split_ifs <;> simp

theorem tabStep_length_gt (out : List Byte) (c : Byte) : out.length < (tabStep out c).length := by
  rw [tabStep_length]
  split_ifs <;> omega

/-- The tab-expanded column is the length of the reference expansion of the
bytes before the cursor. -/
theorem editorRowCxToRx_eq_length (row : erow) (n : Nat) :
    editorRowCxToRx row (n : Int) = ((expandTabs (row.firstBytes n)).length : Int) := by
  induction n with
  | zero => rw [editorRowCxToRx_nonpos row _ (by simp)]; rfl
  | succ k ih =>
    have e : ((k + 1 : Nat) : Int) = (k : Int) + 1 := by push_cast; rfl
    rw [e, editorRowCxToRx_succ, ih, firstBytes_succ, expandTabs_append_singleton, tabStep_length]
    unfold cxToRxStep
    rw [cmod_of_nonneg _ (Int.ofNat_nonneg _)]
    unfold KILO_TAB_STOP
    split_ifs <;> push_cast <;> omega

theorem set_append_length (out rest : List Byte) (x b : Byte) :
    (out ++ x :: rest).set out.length b = (out ++ [b]) ++ rest := by
  induction out with
  | nil => rfl
  | cons a as ih =>
    simp only [List.cons_append, List.length_cons, List.set_cons_succ]
    rw [ih]

theorem storeByte_append (out rest : List Byte) (x b : Byte) :
    storeByte (out ++ x :: rest) (out.length : Int) b = some ((out ++ [b]) ++ rest) := by
  unfold storeByte
  have hlen : ((out.length : Int)) < ((out ++ x :: rest).length : Int) := by
    rw [List.length_append, List.length_cons]
    push_cast
    omega
  rw [if_pos ⟨Int.ofNat_nonneg _, hlen⟩, Int.toNat_ofNat, set_append_length]

theorem storeByte_append_nil (out : List Byte) (b : Byte) :
    storeByte (out ++ []) (out.length : Int) b = none := by
  unfold storeByte
  rw [if_neg]
  rw [List.append_nil]
  omega

theorem padToTabStop_spec (k : Nat) :
    ∀ (fuel : Nat) (out rest : List Byte), k < fuel → k ≤ rest.length →
      (out.length + k) % 8 = 0 → (∀ m < k, (out.length + m) % 8 ≠ 0) →
      padToTabStop fuel (out ++ rest) (out.length : Int) =
        some (out ++ List.replicate k 32 ++ rest.drop k, ((out.length + k : Nat) : Int)) := by
  induction k with
  | zero =>
    intro fuel out rest hf _ hz _
    obtain ⟨f, rfl⟩ := Nat.exists_eq_succ_of_ne_zero (Nat.pos_iff_ne_zero.mp hf)
    have hc : cmod (out.length : Int) KILO_TAB_STOP = 0 := by
      rw [cmod_of_nonneg _ (Int.ofNat_nonneg _)]
      omega
    simp only [padToTabStop, hc, ne_eq, not_true_eq_false, if_false, List.replicate_zero,
      List.append_nil, List.drop_zero, Nat.add_zero]
  | succ k ih =>
    intro fuel out rest hf hr hz hnz
    obtain ⟨f, rfl⟩ := Nat.exists_eq_succ_of_ne_zero (Nat.pos_iff_ne_zero.mp (Nat.lt_of_le_of_lt (Nat.zero_le _) hf))
    have h0 := hnz 0 (Nat.succ_pos k)
    have hc : cmod (out.length : Int) KILO_TAB_STOP ≠ 0 := by
      rw [cmod_of_nonneg _ (Int.ofNat_nonneg _)]
      omega
    cases rest with
    | nil => simp at hr
    | cons x rest1 =>
      have hlen1 : ((out.length : Int)) + 1 = (((out ++ [32]).length : Nat) : Int) := by
        rw [List.length_append, List.length_singleton]
        push_cast
        rfl
      simp only [padToTabStop, hc, ne_eq, not_false_eq_true, if_true, storeByte_append,
        Option.some_bind]
      rw [hlen1, ih f (out ++ [32]) rest1 (by omega) (by simpa using hr)]
      · congr 2
        · simp [List.replicate_succ]
        · rw [List.length_append, List.length_singleton]
          push_cast
          omega
      · rw [List.length_append, List.length_singleton]
        omega
      · intro m hm
        rw [List.length_append, List.length_singleton]
        have := hnz (m + 1) (by omega)
        omega

theorem expandStep_spec (row : erow) (j : Nat) (out rest : List Byte)
    (h : (tabStep out (row.charAt j)).length ≤ out.length + rest.length) :
    expandStep row (out ++ rest, (out.length : Int)) j =
      some (tabStep out (row.charAt j) ++
          rest.drop ((tabStep out (row.charAt j)).length - out.length),
        ((tabStep out (row.charAt j)).length : Int)) := by
  rw [tabStep_length] at h
  unfold expandStep
  by_cases ht : row.charAt j = 9
  · rw [if_pos ht] at h
    simp only [ht, if_true]
    cases rest with
    | nil => simp only [List.length_nil] at h; omega
    | cons x rest1 =>
      have hlen1 : ((out.length : Int)) + 1 = (((out ++ [32]).length : Nat) : Int) := by
        rw [List.length_append, List.length_singleton]
        push_cast
        rfl
      have hl : (out ++ [32]).length = out.length + 1 := by
        rw [List.length_append, List.length_singleton]
      rw [storeByte_append, Option.some_bind, hlen1,
        padToTabStop_spec (7 - out.length % 8) 8 (out ++ [32]) rest1 (by omega)
          (by simp only [List.length_cons] at h; omega) (by rw [hl]; omega)
          (by intro m hm; rw [hl]; omega)]
      have hts : tabStep out 9 = out ++ [32] ++ List.replicate (7 - out.length % 8) 32 := by
        unfold tabStep
        rw [if_pos rfl, List.append_assoc]
        congr 1
        have e : 8 - out.length % 8 = (7 - out.length % 8) + 1 := by omega
        rw [e, List.replicate_succ]
        rfl
      have hd : tabStep out 9 = out ++ List.replicate (8 - out.length % 8) 32 := by
        unfold tabStep
        rw [if_pos rfl]
      congr 2
      · rw [hts]
        congr 1
        rw [← hts, hd, List.length_append, List.length_replicate]
        have e : out.length + (8 - out.length % 8) - out.length = (7 - out.length % 8) + 1 := by
          omega
        rw [e, List.drop_succ_cons]
      · rw [hd]
        simp only [List.length_append, List.length_replicate, List.length_singleton]
        omega
  · rw [if_neg ht] at h
    simp only [ht, if_false]
    cases rest with
    | nil => simp only [List.length_nil] at h; omega
    | cons x rest1 =>
      have hts : tabStep out (row.charAt j) = out ++ [row.charAt j] := by
        unfold tabStep
        rw [if_neg ht]
      rw [storeByte_append, Option.map_some', hts]
      congr 2
      · rw [List.length_append, List.length_singleton]
        have e : out.length + 1 - out.length = 0 + 1 := by omega
        rw [e, List.drop_succ_cons, List.drop_zero]
      · rw [List.length_append, List.length_singleton]
        push_cast
        rfl

theorem expandTabs_firstBytes_succ (row : erow) (n : Nat) :
    expandTabs (row.firstBytes (n + 1)) = tabStep (expandTabs (row.firstBytes n)) (row.charAt n) := by
  rw [firstBytes_succ, expandTabs_append_singleton]

theorem expandLoop_spec (row : erow) (buf0 : List Byte) (n : Nat)
    (h : (expandTabs (row.firstBytes n)).length ≤ buf0.length) :
    List.foldlM (expandStep row) (buf0, (0 : Int)) (List.range n) =
      some (expandTabs (row.firstBytes n) ++ buf0.drop (expandTabs (row.firstBytes n)).length,
        ((expandTabs (row.firstBytes n)).length : Int)) := by
  induction n with
  | zero => rfl
  | succ k ih =>
    have hlt := tabStep_length_gt (expandTabs (row.firstBytes k)) (row.charAt k)
    rw [expandTabs_firstBytes_succ] at h
    rw [List.range_succ, List.foldlM_append, ih (by omega), expandTabs_firstBytes_succ]
    simp only [Option.bind_eq_bind, Option.some_bind, List.foldlM_cons, List.foldlM_nil]
    rw [expandStep_spec row k _ _ (by rw [List.length_drop]; omega)]
    simp only [Option.some_bind, List.drop_drop, pure]
    congr 4
    omega

theorem firstBytes_len (row : erow) (n : Nat) : (row.firstBytes n).length = n := by
  unfold erow.firstBytes
  rw [List.length_map, List.length_range]

theorem tabsFold_eq_count (row : erow) (n : Nat) :
    (List.range n).foldl (fun (tabs : Int) j => if row.charAt j = 9 then tabs + 1 else tabs) 0
      = (((row.firstBytes n).count 9 : Nat) : Int) := by
  induction n with
  | zero => rfl
  | succ k ih =>
    rw [List.range_succ, List.foldl_append, ih, firstBytes_succ, List.count_append]
    simp only [List.foldl_cons, List.foldl_nil, List.count_singleton]
    split_ifs with h1 h2 h2
    · push_cast; rfl
    · exact absurd h1 (by simpa using h2)
    · exact absurd (by simpa using h2) h1
    · push_cast; omega

theorem countTabs_eq_count (row : erow) :
    countTabs row = (((row.firstBytes row.size.toNat).count 9 : Nat) : Int) :=
  tabsFold_eq_count row row.size.toNat

theorem foldl_tabStep_length_le (cs : List Byte) :
    ∀ out : List Byte, (cs.foldl tabStep out).length ≤ out.length + cs.length + 7 * cs.count 9 := by
  induction cs with
  | nil => intro out; simp
  | cons c cs ih =>
    intro out
    have h := ih (tabStep out c)
    rw [tabStep_length] at h
    rw [List.foldl_cons, List.length_cons, List.count_cons]
    by_cases hc : c = 9
    · rw [if_pos hc] at h
      subst hc
      simp only [beq_self_eq_true, if_true]
      omega
    · rw [if_neg hc] at h
      have hb : (c == 9) = false := by simpa using hc
      simp only [hb]
      simp only [Bool.false_eq_true, if_false]
      omega

theorem expandTabs_length_le (cs : List Byte) :
    (expandTabs cs).length ≤ cs.length + 7 * cs.count 9 := by
  have h := foldl_tabStep_length_le cs []
  simpa [expandTabs] using h

/-- The result of `editorUpdateRow` on a row whose `size` is not negative:
every store is inside the buffer, `render` is the reference expansion of the
bytes `chars[0 .. size)` and `rsize` its length. -/
theorem editorUpdateRow_spec (row : erow) (h0 : 0 ≤ row.size) :
    editorUpdateRow row = some { row with
      render := expandTabs (row.firstBytes row.size.toNat),
      rsize := ((expandTabs (row.firstBytes row.size.toNat)).length : Int) } := by
  have hle := expandTabs_length_le (row.firstBytes row.size.toNat)
  rw [firstBytes_len] at hle
  have hct := countTabs_eq_count row
  have hcap : (row.size + countTabs row * (KILO_TAB_STOP - 1) + 1).toNat
      = row.size.toNat + 7 * (row.firstBytes row.size.toNat).count 9 + 1 := by
    rw [hct]
    unfold KILO_TAB_STOP
    omega
  unfold editorUpdateRow
  simp only []
  rw [hcap, expandLoop_spec row _ _ (by rw [List.length_replicate]; omega), Option.some_bind]
  simp only []
  have hdrop : (List.drop (expandTabs (row.firstBytes row.size.toNat)).length
      (List.replicate (row.size.toNat + 7 * (row.firstBytes row.size.toNat).count 9 + 1)
        (0 : Byte))).length ≠ 0 := by
    rw [List.length_drop, List.length_replicate]
    omega
  cases hd : List.drop (expandTabs (row.firstBytes row.size.toNat)).length
      (List.replicate (row.size.toNat + 7 * (row.firstBytes row.size.toNat).count 9 + 1)
        (0 : Byte)) with
  | nil => rw [hd] at hdrop; exact absurd rfl hdrop
  | cons x rest =>
    rw [storeByte_append, Option.map_some', Int.toNat_ofNat, List.append_assoc,
      List.take_left' rfl]

theorem tabStep_other (out : List Byte) (c : Byte) (h : c ≠ 9) : tabStep out c = out ++ [c] := by
  unfold tabStep
  rw [if_neg h]

theorem editorUpdateRow_of_size (row : erow) (hs : row.size = row.chars.length) :
    editorUpdateRow row = some { row with
      render := expandTabs row.chars, rsize := ((expandTabs row.chars).length : Int) } := by
  have h := editorUpdateRow_spec row (by omega)
  have hn : row.size.toNat = row.chars.length := by omega
  rw [hn, firstBytes_length] at h
  exact h

/-- With exact integer arithmetic the buffer of `editorUpdateRow` is large
enough.  For every row (`size` not negative) with `tabs = countTabs row`, the
number of tab bytes among `chars[0 .. size)`, the expansion loop on a buffer of
`size + tabs*(KILO_TAB_STOP - 1) + 1` bytes completes with every store inside
the buffer, the index of the terminating NUL is inside it as well, and
`rsize <= size + 7 * tabs`. -/
theorem editorUpdateRow_buffer_bound (row : erow) (h0 : 0 ≤ row.size) :
    (∃ buf idx,
      List.foldlM (expandStep row)
        (List.replicate (row.size + countTabs row * (KILO_TAB_STOP - 1) + 1).toNat (0 : Byte),
          (0 : Int))
        (List.range row.size.toNat) = some (buf, idx) ∧
      (buf.length : Int) = row.size + 7 * countTabs row + 1 ∧
      0 ≤ idx ∧ idx < row.size + 7 * countTabs row + 1 ∧
      (storeByte buf idx 0).isSome = true ∧
      ∃ row1, editorUpdateRow row = some row1 ∧ row1.rsize = idx ∧
        row1.rsize ≤ row.size + 7 * countTabs row) ∧
    countTabs row = (((row.firstBytes row.size.toNat).count 9 : Nat) : Int) ∧
    (row.size = row.chars.length → countTabs row = ((row.chars.count 9 : Nat) : Int)) := by
  have hle := expandTabs_length_le (row.firstBytes row.size.toNat)
  rw [firstBytes_len] at hle
  have hct := countTabs_eq_count row
  have hcap : (row.size + countTabs row * (KILO_TAB_STOP - 1) + 1).toNat
      = row.size.toNat + 7 * (row.firstBytes row.size.toNat).count 9 + 1 := by
    rw [hct]
    unfold KILO_TAB_STOP
    omega
  have hloop := expandLoop_spec row
    (List.replicate (row.size + countTabs row * (KILO_TAB_STOP - 1) + 1).toNat (0 : Byte))
    row.size.toNat (by rw [List.length_replicate, hcap]; omega)
  have hlen : ((expandTabs (row.firstBytes row.size.toNat) ++
      List.drop (expandTabs (row.firstBytes row.size.toNat)).length
        (List.replicate (row.size + countTabs row * (KILO_TAB_STOP - 1) + 1).toNat
          (0 : Byte))).length : Int) = row.size + 7 * countTabs row + 1 := by
    rw [List.length_append, List.length_drop, List.length_replicate, hcap, hct]
    omega
  refine ⟨⟨_, _, hloop, hlen, Int.ofNat_nonneg _, by rw [hct]; omega, ?_,
    _, editorUpdateRow_spec row h0, rfl, by rw [hct]; show ((_ : Nat) : Int) ≤ _; omega⟩, hct, ?_⟩
  · unfold storeByte
    rw [if_pos ⟨Int.ofNat_nonneg _, by rw [hlen, hct]; omega⟩]
    rfl
  · intro hs
    have hn : row.size.toNat = row.chars.length := by omega
    rw [hct, hn, firstBytes_length]

/-! ### The two tab transforms -/

theorem foldl_tabStep_extends (cs : List Byte) :
    ∀ out : List Byte, ∃ t, cs.foldl tabStep out = out ++ t := by
  induction cs with
  | nil => intro out; exact ⟨[], (List.append_nil out).symm⟩
  | cons c cs ih =>
    intro out
    obtain ⟨t, ht⟩ := ih (tabStep out c)
    rw [List.foldl_cons, ht]
    unfold tabStep
    split_ifs
    · exact ⟨_, List.append_assoc _ _ _⟩
    · exact ⟨_, List.append_assoc _ _ _⟩

theorem expandTabs_take_extends (cs : List Byte) (n : Nat) :
    ∃ t, expandTabs cs = expandTabs (cs.take n) ++ t := by
  have h : expandTabs cs = (cs.drop n).foldl tabStep (expandTabs (cs.take n)) := by
    conv_lhs => rw [← List.take_append_drop n cs]
    unfold expandTabs
    rw [List.foldl_append]
  rw [h]
  exact foldl_tabStep_extends _ _

theorem take_expandTabs (cs : List Byte) (n : Nat) :
    (expandTabs cs).take (expandTabs (cs.take n)).length = expandTabs (cs.take n) := by
  obtain ⟨t, ht⟩ := expandTabs_take_extends cs n
  rw [ht, List.take_left' rfl]

theorem editorRowCxToRx_congr (row row1 : erow) (h : row1.chars = row.chars) (cx : Int) :
    editorRowCxToRx row1 cx = editorRowCxToRx row cx := by
  have hc : row1.charAt = row.charAt := by
    funext j
    unfold erow.charAt
    rw [h]
  unfold editorRowCxToRx cxToRxStep
  rw [hc]

theorem editorRowCxToRx_eq_take (row : erow) (n : Nat) (h : n ≤ row.chars.length) :
    editorRowCxToRx row (n : Int) = ((expandTabs (row.chars.take n)).length : Int) := by
  rw [editorRowCxToRx_eq_length, firstBytes_eq_take row n h]

theorem scrollRx_of_rowAt (E : editorConfig) (r : erow) (hlt : E.cy < E.numRows)
    (hr : rowAt E E.cy = some r) : scrollRx E = some (editorRowCxToRx r E.cx) := by
  unfold scrollRx
  rw [if_pos hlt, hr]
  rfl

/-! ### Inert keys -/

theorem editorProcessKey_other (c : Int) (E : editorConfig)
    (hq : c ≠ CTRL_KEY 113) (hh : c ≠ HOME_KEY) (he : c ≠ END_KEY)
    (hpu : c ≠ PAGE_UP) (hpd : c ≠ PAGE_DOWN)
    (hl : c ≠ ARROW_LEFT) (hd : c ≠ ARROW_DOWN) (hu : c ≠ ARROW_UP) (hr : c ≠ ARROW_RIGHT) :
    editorProcessKey c E = KeyOutcome.running E := by
  unfold editorProcessKey
  rw [if_neg hq, if_neg hh, if_neg he, if_neg (by tauto), if_neg (by tauto)]

theorem charToInt_range (b : Byte) : -128 ≤ charToInt b ∧ charToInt b < 128 := by
  unfold charToInt
  split_ifs <;> omega

/-- C12: a key other than Ctrl-Q (17), the four arrows, Home, End, Page Up and
Page Down leaves the whole editor state unchanged: the switch of
`editorProcessKeypress` returns the state it was given, and so does
`editorProcessKeypress` on any stream from which `editorReadKey` decodes such
a key.  Delete, the bare escape key and every byte other than 17 are such
keys. -/
theorem C12_other_keys_inert (c : Int) (E : editorConfig)
    (hq : c ≠ CTRL_KEY 113) (hh : c ≠ HOME_KEY) (he : c ≠ END_KEY)
    (hpu : c ≠ PAGE_UP) (hpd : c ≠ PAGE_DOWN)
    (hl : c ≠ ARROW_LEFT) (hd : c ≠ ARROW_DOWN) (hu : c ≠ ARROW_UP) (hr : c ≠ ARROW_RIGHT) :
    editorProcessKey c E = KeyOutcome.running E ∧
    (∀ input rest, editorReadKey input = ReadKey.key c rest →
      editorProcessKeypress input E = Keypress.handled (KeyOutcome.running E) rest) ∧
    editorProcessKey DEL_KEY E = KeyOutcome.running E ∧
    editorProcessKey ESC E = KeyOutcome.running E ∧
    (∀ b : Byte, charToInt b ≠ 17 → editorProcessKey (charToInt b) E = KeyOutcome.running E) := by
  have hc := editorProcessKey_other c E hq hh he hpu hpd hl hd hu hr
  refine ⟨hc, ?_, ?_, ?_, ?_⟩
  · intro input rest hk
    unfold editorProcessKeypress
    rw [hk]
    simp only [hc]
  · exact editorProcessKey_other DEL_KEY E (by decide) (by decide) (by decide) (by decide)
      (by decide) (by decide) (by decide) (by decide) (by decide)
  · exact editorProcessKey_other ESC E (by decide) (by decide) (by decide) (by decide)
      (by decide) (by decide) (by decide) (by decide) (by decide)
  · intro b hb
    have hr := charToInt_range b
    have h17 : CTRL_KEY 113 = 17 := by decide
    exact editorProcessKey_other _ E (by rw [h17]; exact hb)
      (by unfold HOME_KEY; omega) (by unfold END_KEY; omega) (by unfold PAGE_UP; omega)
      (by unfold PAGE_DOWN; omega) (by unfold ARROW_LEFT; omega) (by unfold ARROW_DOWN; omega)
      (by unfold ARROW_UP; omega) (by unfold ARROW_RIGHT; omega)

theorem C12_other_keys_inert_witness :
    editorProcessKey 120 (sampleState 3 0) = KeyOutcome.running (sampleState 3 0) ∧
    editorProcessKeypress [ReadResult.byte 120, ReadResult.byte 27] (sampleState 3 0)
      = Keypress.handled (KeyOutcome.running (sampleState 3 0)) [ReadResult.byte 27] :=
  ⟨(C12_other_keys_inert 120 (sampleState 3 0) (by decide) (by decide) (by decide) (by decide)
      (by decide) (by decide) (by decide) (by decide) (by decide)).1,
   (C12_other_keys_inert 120 (sampleState 3 0) (by decide) (by decide) (by decide) (by decide)
      (by decide) (by decide) (by decide) (by decide) (by decide)).2.1 _ _ (by decide)⟩

/-! ### Loading a file -/

theorem stripLineEnd_le (line : List Byte) (n : Nat) : stripLineEnd line n ≤ n := by
  induction n with
  | zero => exact le_refl _
  | succ k ih =>
    unfold stripLineEnd
    split_ifs
    · exact le_trans ih (Nat.le_succ k)
    · exact le_refl _

theorem take_stripLineEnd (l : List Byte) (n : Nat) (h : n ≤ l.length) :
    l.take (stripLineEnd l n) = stripped (l.take n) := by
  induction n with
  | zero => rfl
  | succ k ih =>
    have hk : k < l.length := h
    have hget : l.getD k 0 = l[k] := List.getD_eq_getElem _ _ hk
    have htk : l.take (k + 1) = l.take k ++ [l[k]] := by
      rw [List.take_succ, List.getElem?_eq_getElem hk]
      rfl
    unfold stripLineEnd stripped
    rw [htk, List.rdropWhile_concat, hget]
    by_cases hp : l[k] = 10 ∨ l[k] = 13
    · have hb : isLineEnd l[k] = true := by
        unfold isLineEnd
        rcases hp with hp | hp <;> simp [hp]
      rw [if_pos hp, if_pos hb]
      exact ih (le_of_lt hk)
    · have hb : ¬ isLineEnd l[k] = true := by
        unfold isLineEnd
        simpa using hp
      rw [if_neg hp, if_neg hb]
      exact htk

theorem take_stripLineEnd_length (line : List Byte) :
    line.take (stripLineEnd line line.length) = stripped line := by
  rw [take_stripLineEnd line _ (le_refl _), List.take_length]

theorem editorAppendRow_eq (s : List Byte) (len : Nat) (E : editorConfig) (h : len ≤ s.length) :
    editorAppendRow s len E = some { E with
      row := E.row ++ [renderedRow (s.take len)], numRows := E.numRows + 1 } := by
  have hl : (s.take len).length = len := by rw [List.length_take, Nat.min_eq_left h]
  unfold editorAppendRow
  rw [editorUpdateRow_of_size _ (by show (len : Int) = ((s.take len).length : Int); rw [hl])]
  unfold renderedRow
  rw [hl]
  rfl

theorem foldlM_appendRow_eq (lines : List (List Byte)) (E : editorConfig) :
    lines.foldlM (fun E1 line => editorAppendRow line (stripLineEnd line line.length) E1) E
      = some { E with
          row := E.row ++ lines.map fun line => renderedRow (stripped line),
          numRows := E.numRows + lines.length } := by
  induction lines generalizing E with
  | nil => simp
  | cons line rest ih =>
    rw [List.foldlM_cons, editorAppendRow_eq line _ E (stripLineEnd_le line _),
      take_stripLineEnd_length]
    simp only [Option.bind_eq_bind, Option.some_bind]
    rw [ih]
    simp only [List.map_cons, List.append_assoc, List.singleton_append, List.length_cons]
    congr 2
    push_cast
    ring

theorem editorOpen_eq (filename : List Byte) (lines : List (List Byte)) (E : editorConfig) :
    editorOpen filename lines E = some { E with
      filename := some filename,
      row := E.row ++ lines.map fun line => renderedRow (stripped line),
      numRows := E.numRows + lines.length } := by
  unfold editorOpen
  rw [foldlM_appendRow_eq]

theorem clampCx_eq_self (E : editorConfig) (h : E.cx ≤ cursorRowSize E) : clampCx E = E := by
  unfold clampCx
  rw [if_neg (not_lt.mpr h)]

theorem moveCursorSwitch_left (E : editorConfig) :
    moveCursorSwitch ARROW_LEFT E =
      if E.cx ≠ 0 then some { E with cx := E.cx - 1 }
      else if E.cy > 0 then
        (rowAt E (E.cy - 1)).map fun r => { E with cy := E.cy - 1, cx := r.size }
      else some E := by
  unfold moveCursorSwitch
  rw [if_pos rfl]

theorem rowAt_congr (E F : editorConfig) (h : F.row = E.row) (i : Int) : rowAt F i = rowAt E i := by
  unfold rowAt
  rw [h]

theorem right_then_left (E : editorConfig) (h : CursorInRange E) (hlt : E.cy < E.numRows) :
    ∃ E1, editorMoveCursor ARROW_RIGHT E = some E1 ∧ editorMoveCursor ARROW_LEFT E1 = some E := by
  obtain ⟨⟨hn, hs, hcy0, hcy1, hcx0⟩, hcx1⟩ := h
  obtain ⟨r, hr, hmem⟩ := rowAt_eq_some E E.cy hcy0 (by omega)
  have hc := cursorRowSize_of_rowAt E r hr
  have hsw := moveCursorSwitch_right E r hlt hr
  rw [hc] at hcx1
  by_cases hlt2 : E.cx < r.size
  · rw [if_pos hlt2] at hsw
    have hm := editorMoveCursor_of_switch ARROW_RIGHT E _ hsw hcy0 hn
    have hcs : cursorRowSize { E with cx := E.cx + 1 } = r.size :=
      (cursorRowSize_congr E { E with cx := E.cx + 1 } rfl rfl).trans hc
    rw [clampCx_eq_self _ (by rw [hcs]; show E.cx + 1 ≤ r.size; omega)] at hm
    refine ⟨_, hm, ?_⟩
    have hsl : moveCursorSwitch ARROW_LEFT { E with cx := E.cx + 1 } = some E := by
      rw [moveCursorSwitch_left, if_pos (show E.cx + 1 ≠ 0 by omega)]
      congr 1
      cases E
      simp
    rw [editorMoveCursor_of_switch ARROW_LEFT _ E hsl hcy0 hn, clampCx_eq_self E (by rw [hc]; exact hcx1)]
  · have heq : E.cx = r.size := by omega
    rw [if_neg hlt2, if_pos heq] at hsw
    have hm := editorMoveCursor_of_switch ARROW_RIGHT E _ hsw (show 0 ≤ E.cy + 1 by omega) hn
    have hnn : (0 : Int) ≤ cursorRowSize { E with cy := E.cy + 1, cx := 0 } :=
      cursorRowSize_nonneg { E with cy := E.cy + 1, cx := 0 } hs
    rw [clampCx_eq_self _ hnn] at hm
    refine ⟨_, hm, ?_⟩
    have hsl : moveCursorSwitch ARROW_LEFT { E with cy := E.cy + 1, cx := 0 } = some E := by
      rw [moveCursorSwitch_left, if_neg (by simp), if_pos (show E.cy + 1 > 0 by omega)]
      have hr1 : rowAt { E with cy := E.cy + 1, cx := 0 } (E.cy + 1 - 1) = some r := by
        show rowAt E (E.cy + 1 - 1) = some r
        rw [show E.cy + 1 - 1 = E.cy by omega, hr]
      show Option.map _ (rowAt { E with cy := E.cy + 1, cx := 0 } (E.cy + 1 - 1)) = some E
      rw [hr1, Option.map_some']
      congr 1
      cases E
      simp only [editorConfig.mk.injEq, and_true, true_and] at *
      constructor <;> omega
    rw [editorMoveCursor_of_switch ARROW_LEFT _ E hsl hcy0 hn, clampCx_eq_self E (by rw [hc]; exact hcx1)]

theorem left_then_right (E : editorConfig) (h : CursorInRange E)
    (hne : ¬ (E.cx = 0 ∧ E.cy = 0)) :
    ∃ E1, editorMoveCursor ARROW_LEFT E = some E1 ∧ editorMoveCursor ARROW_RIGHT E1 = some E := by
  obtain ⟨⟨hn, hs, hcy0, hcy1, hcx0⟩, hcx1⟩ := h
  have hself : clampCx E = E := clampCx_eq_self E hcx1
  by_cases hcx : E.cx ≠ 0
  · have hlt : E.cy < E.numRows := by
      by_contra hge
      have hz := cursorRowSize_of_le E (by omega)
      omega
    obtain ⟨r, hr, _⟩ := rowAt_eq_some E E.cy hcy0 (by omega)
    have hc := cursorRowSize_of_rowAt E r hr
    have hsl : moveCursorSwitch ARROW_LEFT E = some { E with cx := E.cx - 1 } := by
      rw [moveCursorSwitch_left, if_pos hcx]
    have hm := editorMoveCursor_of_switch ARROW_LEFT E _ hsl hcy0 hn
    have hcs : cursorRowSize { E with cx := E.cx - 1 } = r.size :=
      (cursorRowSize_congr E { E with cx := E.cx - 1 } rfl rfl).trans hc
    rw [clampCx_eq_self _ (by rw [hcs]; show E.cx - 1 ≤ r.size; omega)] at hm
    refine ⟨_, hm, ?_⟩
    have hr1 : rowAt { E with cx := E.cx - 1 } ({ E with cx := E.cx - 1 } : editorConfig).cy
        = some r := hr
    have hsr := moveCursorSwitch_right { E with cx := E.cx - 1 } r hlt hr1
    rw [if_pos (show E.cx - 1 < r.size by omega)] at hsr
    have he : ({ E with cx := E.cx - 1 + 1 } : editorConfig) = E := by
      cases E
      simp
    have hsr2 : moveCursorSwitch ARROW_RIGHT { E with cx := E.cx - 1 } = some E := by
      rw [hsr]
      exact congrArg some he
    rw [editorMoveCursor_of_switch ARROW_RIGHT _ E hsr2 hcy0 hn, hself]
  · have hcx0' : E.cx = 0 := not_not.mp hcx
    have hcy : E.cy > 0 := by
      by_contra hle
      exact hne ⟨hcx0', by omega⟩
    obtain ⟨rp, hrp, hmem⟩ := rowAt_eq_some E (E.cy - 1) (by omega) (by omega)
    have hsl : moveCursorSwitch ARROW_LEFT E = some { E with cy := E.cy - 1, cx := rp.size } := by
      rw [moveCursorSwitch_left, if_neg hcx, if_pos hcy, hrp]
      rfl
    have hm := editorMoveCursor_of_switch ARROW_LEFT E _ hsl (show 0 ≤ E.cy - 1 by omega) hn
    have hrp1 : rowAt { E with cy := E.cy - 1, cx := rp.size }
        ({ E with cy := E.cy - 1, cx := rp.size } : editorConfig).cy = some rp := hrp
    have hcs : cursorRowSize { E with cy := E.cy - 1, cx := rp.size } = rp.size :=
      cursorRowSize_of_rowAt _ rp hrp1
    rw [clampCx_eq_self _ (by rw [hcs])] at hm
    refine ⟨_, hm, ?_⟩
    have hsr := moveCursorSwitch_right { E with cy := E.cy - 1, cx := rp.size } rp
      (show E.cy - 1 < E.numRows by omega) hrp1
    rw [if_neg (show ¬ (rp.size < rp.size) by omega), if_pos rfl] at hsr
    have he : ({ E with cy := E.cy - 1 + 1, cx := 0 } : editorConfig) = E := by
      cases E
      simp only [editorConfig.mk.injEq, and_true, true_and] at *
      constructor <;> omega
    have hsr2 : moveCursorSwitch ARROW_RIGHT { E with cy := E.cy - 1, cx := rp.size }
        = some E := by
      rw [hsr]
      exact congrArg some he
    rw [editorMoveCursor_of_switch ARROW_RIGHT _ E hsr2 hcy0 hn, hself]

/-- C19: `ARROW_LEFT` and `ARROW_RIGHT` are inverse moves of
`editorMoveCursor` on a cursor that satisfies the range invariant.  With
`cy < numRows`, Right followed by Left returns the state it started from; and
from every position other than `(cx, cy) = (0, 0)`, the after-last-line
position `(0, numRows)` with `numRows >= 1` included, Left followed by Right
returns the state it started from. -/
theorem C19_left_right_inverse (E : editorConfig) (h : CursorInRange E) :
    (E.cy < E.numRows →
      ∃ E1, editorMoveCursor ARROW_RIGHT E = some E1 ∧
        editorMoveCursor ARROW_LEFT E1 = some E) ∧
    (¬ (E.cx = 0 ∧ E.cy = 0) →
      ∃ E1, editorMoveCursor ARROW_LEFT E = some E1 ∧
        editorMoveCursor ARROW_RIGHT E1 = some E) ∧
    (E.cx = 0 → E.cy = E.numRows → 1 ≤ E.numRows →
      ∃ E1, editorMoveCursor ARROW_LEFT E = some E1 ∧
        editorMoveCursor ARROW_RIGHT E1 = some E) := by
  refine ⟨right_then_left E h, left_then_right E h, ?_⟩
  intro _ hcy hnr
  exact left_then_right E h (by omega)

theorem sampleState_inRange : CursorInRange (sampleState 0 2) :=
  ⟨⟨by decide, by decide, by decide, by decide, by decide⟩, by decide⟩

theorem C19_left_right_inverse_witness :
    ∃ E1, editorMoveCursor ARROW_LEFT (sampleState 0 2) = some E1 ∧
      editorMoveCursor ARROW_RIGHT E1 = some (sampleState 0 2) :=
  (C19_left_right_inverse (sampleState 0 2) sampleState_inRange).2.2
    (by decide) (by decide) (by decide)

/-! ### Screen rows -/

theorem readBytes_of_le (s : List Byte) (n : Nat) (h : n ≤ s.length) :
    readBytes s (n : Int) = some (s.take n) := by
  unfold readBytes
  rw [if_pos ⟨Int.ofNat_nonneg _, by omega⟩, Int.toNat_ofNat]

theorem abAppend_of_le (ab s : List Byte) (n : Nat) (h : n ≤ s.length) :
    abAppend ab s (n : Int) = some (ab ++ s.take n) := by
  unfold abAppend
  rw [readBytes_of_le s n h]
  rfl

theorem abAppend_all (ab s : List Byte) (len : Int) (h : len = (s.length : Int)) :
    abAppend ab s len = some (ab ++ s) := by
  rw [h, abAppend_of_le ab s s.length (le_refl _), List.take_length]

theorem appendSpaces_eq (n : Nat) (ab : List Byte) :
    appendSpaces n ab = some (ab ++ List.replicate n 32) := by
  induction n generalizing ab with
  | zero => simp [appendSpaces]
  | succ k ih =>
    rw [appendSpaces, abAppend_all ab [32] 1 rfl, Option.some_bind, ih, List.append_assoc]
    rfl

theorem drawRow_tail (ab1 : List Byte) :
    ((abAppend ab1 [27, 91, 75] 3).bind fun ab2 => abAppend ab2 [13, 10] 2)
      = some (ab1 ++ [27, 91, 75, 13, 10]) := by
  rw [abAppend_all ab1 [27, 91, 75] 3 rfl, Option.some_bind,
    abAppend_all _ [13, 10] 2 rfl, List.append_assoc]
  rfl

theorem drawRow_tilde (E : editorConfig) (y : Int) (ab : List Byte)
    (h1 : y + E.rowOffset ≥ E.numRows) (h2 : ¬ (E.numRows = 0 ∧ y = cdiv E.screenRows 3)) :
    drawRow E y ab = some (ab ++ [126] ++ [27, 91, 75, 13, 10]) := by
  unfold drawRow
  rw [if_pos h1, if_neg h2, abAppend_all ab [126] 1 rfl, Option.some_bind]
  exact drawRow_tail _

theorem drawRow_welcome (E : editorConfig) (y : Int) (ab : List Byte)
    (h1 : y + E.rowOffset ≥ E.numRows) (h2 : E.numRows = 0 ∧ y = cdiv E.screenRows 3) :
    drawRow E y ab = (drawWelcome E ab).map fun ab1 => ab1 ++ [27, 91, 75, 13, 10] := by
  unfold drawRow
  rw [if_pos h1, if_pos h2]
  cases drawWelcome E ab with
  | none => rfl
  | some ab1 =>
    rw [Option.some_bind, Option.map_some']
    exact drawRow_tail _

theorem drawRow_document (E : editorConfig) (y : Int) (ab : List Byte) (r : erow)
    (hc : 0 ≤ E.screenCols) (hco : 0 ≤ E.columnOffset)
    (hlt : y + E.rowOffset < E.numRows) (hr : rowAt E (y + E.rowOffset) = some r)
    (hrs : r.rsize = (r.render.length : Int)) :
    drawRow E y ab = some (ab ++
      (r.render.drop E.columnOffset.toNat).take
        (min E.screenCols (max 0 (r.rsize - E.columnOffset))).toNat ++
      [27, 91, 75, 13, 10]) := by
  unfold drawRow
  rw [if_neg (not_le.mpr hlt), hr, Option.some_bind]
  simp only []
  have hlen : (if (if r.rsize - E.columnOffset < 0 then 0 else r.rsize - E.columnOffset)
        > E.screenCols then E.screenCols
      else (if r.rsize - E.columnOffset < 0 then 0 else r.rsize - E.columnOffset))
      = min E.screenCols (max 0 (r.rsize - E.columnOffset)) := by
    split_ifs <;> omega
  rw [hlen]
  have hnn : 0 ≤ min E.screenCols (max 0 (r.rsize - E.columnOffset)) := by omega
  obtain ⟨n, hn⟩ := Int.eq_ofNat_of_zero_le hnn
  have hfit : n ≤ (renderFrom r E.columnOffset).length := by
    unfold renderFrom
    rw [if_pos hco, List.length_drop]
    omega
  rw [hn, abAppend_of_le ab _ n hfit, Option.some_bind, Int.toNat_ofNat]
  unfold renderFrom
  rw [if_pos hco]
  exact drawRow_tail _

theorem drawRows_of_rows (E : editorConfig) (f : Nat → List Byte) (n : Nat)
    (h : ∀ y < n, ∀ ab1, drawRow E (y : Int) ab1 = some (ab1 ++ f y)) (ab : List Byte) :
    (List.range n).foldlM (fun (ab1 : List Byte) (y : Nat) => drawRow E (y : Int) ab1) ab
      = some (ab ++ ((List.range n).map f).flatten) := by
  induction n with
  | zero => simp
  | succ k ih =>
    rw [List.range_succ, List.foldlM_append, ih (fun y hy => h y (Nat.lt_succ_of_lt hy))]
    simp only [Option.bind_eq_bind, Option.some_bind, List.foldlM_cons, List.foldlM_nil,
      h k (Nat.lt_succ_self k), pure, List.map_append, List.flatten_append, List.map_cons,
      List.map_nil, List.flatten_cons, List.flatten_nil, List.append_nil, List.append_assoc]

theorem snprintf_welcome :
    snprintf 33 (bytesOf "Kilo Editor -- version " ++ KILO_VERSION)
      = (bytesOf "Kilo Editor -- version 0.1.0-RC1", 32) := by decide

theorem cdiv_two_nonneg (a : Int) (h : 0 ≤ a) : 0 ≤ cdiv a 2 := by
  unfold cdiv
  rw [Int.tdiv_eq_ediv h (by decide)]
  omega

theorem drawWelcome_isSome (E : editorConfig) (ab : List Byte) (hc : 0 ≤ E.screenCols) :
    ∃ text, drawWelcome E ab = some (ab ++ text) := by
  unfold drawWelcome
  rw [snprintf_welcome]
  simp only []
  have hwl : 0 ≤ (if (32 : Int) > E.screenCols then E.screenCols else 32) ∧
      (if (32 : Int) > E.screenCols then E.screenCols else 32) ≤ 32 ∧
      (if (32 : Int) > E.screenCols then E.screenCols else 32) ≤ E.screenCols := by
    split_ifs <;> omega
  generalize (if (32 : Int) > E.screenCols then E.screenCols else 32) = wl at hwl
  have hp := cdiv_two_nonneg (E.screenCols - wl) (by omega)
  generalize cdiv (E.screenCols - wl) 2 = padding at hp
  obtain ⟨n, hn⟩ := Int.eq_ofNat_of_zero_le hwl.1
  have hn32 : n ≤ (bytesOf "Kilo Editor -- version 0.1.0-RC1").length := by
    have : (bytesOf "Kilo Editor -- version 0.1.0-RC1").length = 32 := by decide
    omega
  by_cases hz : padding ≠ 0
  · rw [if_pos hz, abAppend_all ab [126] 1 rfl]
    simp only [Option.map_some', Option.some_bind]
    rw [if_neg (by omega), appendSpaces_eq, Option.some_bind, hn, abAppend_of_le _ _ n hn32]
    exact ⟨_, by rw [List.append_assoc, List.append_assoc]⟩
  · rw [if_neg hz]
    simp only [Option.some_bind]
    rw [if_neg (by omega), appendSpaces_eq, Option.some_bind, hn, abAppend_of_le _ _ n hn32]
    exact ⟨_, by rw [List.append_assoc]⟩

theorem drawRow_other (E : editorConfig) (y : Int) (ab : List Byte) (hc : 0 ≤ E.screenCols)
    (h1 : y + E.rowOffset ≥ E.numRows) :
    ∃ text, drawRow E y ab = some (ab ++ text ++ [27, 91, 75, 13, 10]) := by
  by_cases h2 : E.numRows = 0 ∧ y = cdiv E.screenRows 3
  · obtain ⟨text, ht⟩ := drawWelcome_isSome E ab hc
    rw [drawRow_welcome E y ab h1 h2, ht]
    exact ⟨text, rfl⟩
  · exact ⟨[126], drawRow_tilde E y ab h1 h2⟩

/-- C16: with `screenCols >= 0` and `columnOffset >= 0`, the pass of the loop
of `editorDrawRows` for a visible screen row `y` whose file row
`y + rowOffset` is a rendered row of the document appends exactly the bytes
`render[columnOffset .. columnOffset + len)` with
`len = min(screenCols, max(0, rsize - columnOffset))`: the `abAppend` call
reads inside the string (`columnOffset + len <= rsize` whenever a byte is
read), and the clear-to-end-of-line sequence and `"\r\n"` follow.  A screen
row past the document is followed by the same two sequences. -/
theorem C16_document_row_slice (E : editorConfig) (y : Int) (ab : List Byte) (r : erow)
    (hc : 0 ≤ E.screenCols) (hco : 0 ≤ E.columnOffset)
    (_hy0 : 0 ≤ y) (_hy1 : y < E.screenRows)
    (hlt : y + E.rowOffset < E.numRows) (hr : rowAt E (y + E.rowOffset) = some r)
    (hrs : r.rsize = (r.render.length : Int)) :
    drawRow E y ab = some (ab ++
      (r.render.drop E.columnOffset.toNat).take
        (min E.screenCols (max 0 (r.rsize - E.columnOffset))).toNat ++
      [27, 91, 75, 13, 10]) ∧
    abAppend ab (renderFrom r E.columnOffset) (min E.screenCols (max 0 (r.rsize - E.columnOffset)))
      = some (ab ++ (r.render.drop E.columnOffset.toNat).take
          (min E.screenCols (max 0 (r.rsize - E.columnOffset))).toNat) ∧
    (((r.render.drop E.columnOffset.toNat).take
        (min E.screenCols (max 0 (r.rsize - E.columnOffset))).toNat).length : Int)
      = min E.screenCols (max 0 (r.rsize - E.columnOffset)) ∧
    (0 < min E.screenCols (max 0 (r.rsize - E.columnOffset)) →
      E.columnOffset + min E.screenCols (max 0 (r.rsize - E.columnOffset)) ≤ r.rsize) ∧
    (∀ (y1 : Int) (ab1 : List Byte), y1 + E.rowOffset ≥ E.numRows →
      ∃ text, drawRow E y1 ab1 = some (ab1 ++ text ++ [27, 91, 75, 13, 10])) ∧
    editorDrawRows E ab = (List.range E.screenRows.toNat).foldlM
      (fun (ab1 : List Byte) (y1 : Nat) => drawRow E (y1 : Int) ab1) ab := by
  have hnn : 0 ≤ min E.screenCols (max 0 (r.rsize - E.columnOffset)) := by omega
  obtain ⟨n, hn⟩ := Int.eq_ofNat_of_zero_le hnn
  have hfit : n ≤ (renderFrom r E.columnOffset).length := by
    unfold renderFrom
    rw [if_pos hco, List.length_drop]
    omega
  refine ⟨drawRow_document E y ab r hc hco hlt hr hrs, ?_, ?_, ?_, ?_, rfl⟩
  · rw [hn, abAppend_of_le ab _ n hfit, Int.toNat_ofNat]
    unfold renderFrom
    rw [if_pos hco]
  · rw [List.length_take, List.length_drop]
    omega
  · intro _
    omega
  · intro y1 ab1 h1
    exact drawRow_other E y1 ab1 hc h1

theorem C16_document_row_slice_witness :
    drawRow { sampleState 3 0 with columnOffset := 1 } 0 []
      = some ([98, 32, 32, 32, 32, 32, 32] ++ [27, 91, 75, 13, 10]) := by
  have h := (C16_document_row_slice { sampleState 3 0 with columnOffset := 1 } 0 []
    { size := 3, rsize := 8, chars := [97, 98, 9], render := [97, 98, 32, 32, 32, 32, 32, 32] }
    (by decide) (by decide) (by decide) (by decide) (by decide) (by decide) (by decide)).1
  rw [h]
  decide

/-! ### Status bar -/

theorem statusFill_spec (E : editorConfig) (rstatus : List Byte) (fuel : Nat) :
    ∀ (len : Int) (ab : List Byte), len ≤ E.screenCols → (E.screenCols - len).toNat ≤ fuel →
      statusFill E rstatus (rstatus.length : Int) fuel len ab =
        some (if len + (rstatus.length : Int) ≤ E.screenCols then
            ab ++ List.replicate (E.screenCols - len - (rstatus.length : Int)).toNat 32 ++ rstatus
          else ab ++ List.replicate (E.screenCols - len).toNat 32) := by
  induction fuel with
  | zero =>
    intro len ab hle hf
    have he : len = E.screenCols := by omega
    unfold statusFill
    rw [if_neg (by omega)]
    by_cases hfit : len + (rstatus.length : Int) ≤ E.screenCols
    · have hz : rstatus.length = 0 := by omega
      have hnil : rstatus = [] := List.length_eq_zero.mp hz
      rw [if_pos hfit, hnil]
      simp [he]
    · rw [if_neg hfit]
      simp [he]
  | succ k ih =>
    intro len ab hle hf
    unfold statusFill
    by_cases hlt : len < E.screenCols
    · rw [if_pos hlt]
      by_cases heq : E.screenCols - len = (rstatus.length : Int)
      · rw [if_pos heq, abAppend_all ab rstatus _ rfl, if_pos (by omega)]
        have hz : (E.screenCols - len - (rstatus.length : Int)).toNat = 0 := by omega
        rw [hz]
        simp
      · rw [if_neg heq, abAppend_all ab [32] 1 rfl, Option.some_bind,
          ih (len + 1) _ (by omega) (by omega)]
        congr 1
        by_cases hfit : len + (rstatus.length : Int) ≤ E.screenCols
        · rw [if_pos hfit, if_pos (by omega)]
          have e : (E.screenCols - len - (rstatus.length : Int)).toNat
              = (E.screenCols - (len + 1) - (rstatus.length : Int)).toNat + 1 := by omega
          rw [e, List.replicate_succ]
          simp
        · rw [if_neg hfit, if_neg (by omega)]
          have e : (E.screenCols - len).toNat = (E.screenCols - (len + 1)).toNat + 1 := by omega
          rw [e, List.replicate_succ]
          simp
    · have he : len = E.screenCols := by omega
      rw [if_neg hlt]
      by_cases hfit : len + (rstatus.length : Int) ≤ E.screenCols
      · have hz : rstatus.length = 0 := by omega
        have hnil : rstatus = [] := List.length_eq_zero.mp hz
        rw [if_pos hfit, hnil]
        simp [he]
      · rw [if_neg hfit]
        simp [he]

theorem toDigits_length_le (k : Nat) (h : k < 10 ^ 10) : (Nat.toDigits 10 k).length ≤ 10 := by
  unfold Nat.toDigits
  exact Nat.toDigitsCore_length 10 (by decide) (k + 1) k 10 h (by decide)

theorem fmtInt_length_le (n : Int) (h0 : -2147483648 ≤ n) (h1 : n < 2147483648) :
    (fmtInt n).length ≤ 11 := by
  unfold fmtInt
  split_ifs with hneg
  · have h := toDigits_length_le (-n).toNat (by omega)
    rw [List.length_cons, List.length_map]
    omega
  · have h := toDigits_length_le n.toNat (by omega)
    rw [List.length_map]
    omega

theorem statusText_length_le (E : editorConfig) (h0 : -2147483648 ≤ E.numRows)
    (h1 : E.numRows < 2147483648) : (statusText E).length ≤ 40 := by
  have h := fmtInt_length_le E.numRows h0 h1
  have h3 : (bytesOf " - ").length = 3 := by decide
  have h6 : (bytesOf " lines").length = 6 := by decide
  unfold statusText
  simp only [List.length_append, List.length_take, h3, h6]
  omega

theorem rstatusText_length_le (E : editorConfig) (h0 : -2147483648 ≤ E.numRows)
    (h1 : E.numRows < 2147483648) (h2 : -2147483648 ≤ E.cy + 1) (h3 : E.cy + 1 < 2147483648) :
    (rstatusText E).length ≤ 23 := by
  have ha := fmtInt_length_le E.numRows h0 h1
  have hb := fmtInt_length_le (E.cy + 1) h2 h3
  unfold rstatusText
  simp only [List.length_append, List.length_singleton]
  omega

/-- The band of the status bar: the text between the inverse-video on and off
sequences. -/
theorem editorDrawStatusBar_eq (E : editorConfig) (ab : List Byte) (hc : 0 ≤ E.screenCols)
    (hl : (statusText E).length ≤ 79) (hr : (rstatusText E).length ≤ 79) :
    editorDrawStatusBar E ab = some (ab ++ [27, 91, 55, 109] ++
      (if ((statusText E).length : Int) + ((rstatusText E).length : Int) ≤ E.screenCols then
          statusText E ++
            List.replicate
              (E.screenCols - (statusText E).length - (rstatusText E).length).toNat 32 ++
            rstatusText E
        else (statusText E).take E.screenCols.toNat ++
          List.replicate (E.screenCols.toNat - (statusText E).length) 32) ++
      [27, 91, 109] ++ [13, 10]) := by
  have hs1 : snprintf 80 (statusText E) = (statusText E, ((statusText E).length : Int)) := by
    unfold snprintf
    rw [List.take_of_length_le (by omega)]
  have hs2 : snprintf 80 (rstatusText E) = (rstatusText E, ((rstatusText E).length : Int)) := by
    unfold snprintf
    rw [List.take_of_length_le (by omega)]
  unfold editorDrawStatusBar
  rw [abAppend_all ab [27, 91, 55, 109] 4 rfl, Option.some_bind, hs1, hs2]
  simp only []
  by_cases hgt : ((statusText E).length : Int) > E.screenCols
  · obtain ⟨n, hn⟩ := Int.eq_ofNat_of_zero_le hc
    have hr1 : 1 ≤ (rstatusText E).length := by
      unfold rstatusText
      simp only [List.length_append, List.length_singleton]
      omega
    rw [if_pos hgt, hn, abAppend_of_le _ _ n (by omega), Option.some_bind, ← hn,
      statusFill_spec E _ _ _ _ (le_refl _) (by omega), Option.some_bind,
      if_neg (by omega), if_neg (by omega),
      abAppend_all _ [27, 91, 109] 3 rfl, Option.some_bind, abAppend_all _ [13, 10] 2 rfl]
    have e1 : (E.screenCols - E.screenCols).toNat = 0 := by omega
    have e2 : E.screenCols.toNat - (statusText E).length = 0 := by omega
    have e3 : E.screenCols.toNat = n := by omega
    rw [e1, e2, e3]
    simp
  · rw [if_neg hgt, abAppend_all _ _ _ rfl, Option.some_bind,
      statusFill_spec E _ _ _ _ (by omega) (le_refl _), Option.some_bind,
      abAppend_all _ [27, 91, 109] 3 rfl, Option.some_bind, abAppend_all _ [13, 10] 2 rfl]
    by_cases hfit : ((statusText E).length : Int) + ((rstatusText E).length : Int)
        ≤ E.screenCols
    · rw [if_pos hfit, if_pos hfit]
      simp
    · rw [if_neg hfit, if_neg hfit, List.take_of_length_le (by omega)]
      have e : (E.screenCols - ((statusText E).length : Int)).toNat
          = E.screenCols.toNat - (statusText E).length := by omega
      rw [e]
      simp

/-- C17: with `screenCols >= 0` (and `numRows`, `cy + 1` values of an `int`),
`editorDrawStatusBar` emits, between the inverse-video on and off sequences, a
band of exactly `screenCols` bytes; whenever the left text (the display name
cut to 20 bytes, `" - "`, the line count, `" lines"`) and the right text
`cy+1/numRows` together fit in `screenCols`, the band is the left text, then
spaces, then the right text ending at the last column. -/
theorem C17_status_bar_band (E : editorConfig) (ab : List Byte) (hc : 0 ≤ E.screenCols)
    (hn0 : -2147483648 ≤ E.numRows) (hn1 : E.numRows < 2147483648)
    (hy0 : -2147483648 ≤ E.cy + 1) (hy1 : E.cy + 1 < 2147483648) :
    (∃ band, editorDrawStatusBar E ab
        = some (ab ++ [27, 91, 55, 109] ++ band ++ [27, 91, 109] ++ [13, 10]) ∧
      (band.length : Int) = E.screenCols ∧
      (((statusText E).length : Int) + ((rstatusText E).length : Int) ≤ E.screenCols →
        band = statusText E ++
          List.replicate (E.screenCols - (statusText E).length - (rstatusText E).length).toNat 32
          ++ rstatusText E)) ∧
    statusText E = (E.filename.getD (bytesOf "[No Name]")).take 20 ++ bytesOf " - " ++
      fmtInt E.numRows ++ bytesOf " lines" ∧
    rstatusText E = fmtInt (E.cy + 1) ++ bytesOf "/" ++ fmtInt E.numRows := by
  have hl := statusText_length_le E hn0 hn1
  have hr := rstatusText_length_le E hn0 hn1 hy0 hy1
  refine ⟨⟨_, editorDrawStatusBar_eq E ab hc (by omega) (by omega), ?_, ?_⟩, rfl, rfl⟩
  · split_ifs with hfit
    · simp only [List.length_append, List.length_replicate]
      omega
    · simp only [List.length_append, List.length_replicate, List.length_take]
      omega
  · intro hfit
    rw [if_pos hfit]

theorem C17_status_bar_band_witness :
    ∃ band, editorDrawStatusBar (sampleState 3 0) []
        = some ([] ++ [27, 91, 55, 109] ++ band ++ [27, 91, 109] ++ [13, 10]) ∧
      (band.length : Int) = 80 ∧
      band = bytesOf "k - 2 lines" ++ List.replicate 66 32 ++ bytesOf "1/2" := by
  obtain ⟨⟨band, h1, h2, h3⟩, _, _⟩ := C17_status_bar_band (sampleState 3 0) []
    (by decide) (by decide) (by decide) (by decide) (by decide)
  refine ⟨band, h1, h2, ?_⟩
  rw [h3 (by decide)]
  decide

/-- C13: for an empty document (`numRows = 0`, no file name, cursor at row 0)
on a screen with `screenRows = 24` and `screenCols = 80`, `editorDrawRows`
emits `"~"` on every row except row 8 (24/3), which shows the welcome banner
`"Kilo Editor -- version 0.1.0-RC1"` centered in the 80 columns (after `"~"`
and 23 spaces, 24 columns on either side), and the text of
`editorDrawStatusBar` begins with `"[No Name] - 0 lines"`. -/
theorem C13_empty_document_frame (E : editorConfig) (ab : List Byte)
    (hn : E.numRows = 0) (hf : E.filename = none) (hr : E.screenRows = 24)
    (hc : E.screenCols = 80) (hro : 0 ≤ E.rowOffset) (hcy : E.cy = 0) :
    (∀ y : Nat, y < 24 → y ≠ 8 →
      drawRow E (y : Int) ab = some (ab ++ bytesOf "~" ++ bytesOf "\x1b[K\r\n")) ∧
    drawRow E 8 ab = some (ab ++
      (bytesOf "~" ++ List.replicate 23 32 ++ bytesOf "Kilo Editor -- version 0.1.0-RC1") ++
      bytesOf "\x1b[K\r\n") ∧
    (bytesOf "~" ++ List.replicate 23 (32 : Byte)).length = 24 ∧
    (bytesOf "~" ++ List.replicate 23 (32 : Byte)
      ++ bytesOf "Kilo Editor -- version 0.1.0-RC1").length + 24 = 80 ∧
    editorDrawRows E ab = some (ab ++ ((List.range 24).map fun y =>
      (if y = 8 then bytesOf "~" ++ List.replicate 23 32 ++
          bytesOf "Kilo Editor -- version 0.1.0-RC1"
        else bytesOf "~") ++ bytesOf "\x1b[K\r\n").flatten) ∧
    editorDrawStatusBar E ab = some (ab ++ bytesOf "\x1b[7m" ++
      (bytesOf "[No Name] - 0 lines" ++ List.replicate 58 32 ++ bytesOf "1/0") ++
      bytesOf "\x1b[m" ++ bytesOf "\r\n") := by
  have htail : bytesOf "\x1b[K\r\n" = [27, 91, 75, 13, 10] := by decide
  have htilde : bytesOf "~" = [126] := by decide
  have hrows : ∀ y : Nat, y < 24 → ∀ ab1, drawRow E (y : Int) ab1 = some (ab1 ++
      ((if y = 8 then bytesOf "~" ++ List.replicate 23 32 ++
          bytesOf "Kilo Editor -- version 0.1.0-RC1"
        else bytesOf "~") ++ bytesOf "\x1b[K\r\n")) := by
    intro y hy ab1
    have h1 : (y : Int) + E.rowOffset ≥ E.numRows := by omega
    have h8 : cdiv E.screenRows 3 = 8 := by rw [hr]; decide
    by_cases hy8 : y = 8
    · subst hy8
      rw [if_pos rfl, drawRow_welcome E _ ab1 h1 ⟨hn, by rw [h8]; rfl⟩]
      unfold drawWelcome
      rw [snprintf_welcome, hc]
      simp only []
      have hp : cdiv (80 - (if (32 : Int) > 80 then 80 else 32)) 2 = 24 := by decide
      rw [hp, if_pos (by decide), abAppend_all ab1 [126] 1 rfl]
      simp only [Option.map_some', Option.some_bind]
      rw [if_neg (by decide), appendSpaces_eq, Option.some_bind,
        abAppend_all _ _ _ (by decide), Option.map_some', htail, htilde]
      have e : ((24 : Int) - 1).toNat = 23 := by decide
      rw [e]
      simp only [List.append_assoc]
    · rw [if_neg hy8, htail, htilde, ← List.append_assoc]
      exact drawRow_tilde E _ ab1 h1 (by rw [h8]; omega)
  refine ⟨?_, ?_, by decide, by decide, ?_, ?_⟩
  · intro y hy hy8
    have h := hrows y hy ab
    rw [if_neg hy8] at h
    rw [h, List.append_assoc]
  · have h := hrows 8 (by decide) ab
    rw [if_pos rfl] at h
    rw [List.append_assoc]
    exact h
  · unfold editorDrawRows
    rw [hr]
    exact drawRows_of_rows E _ 24 hrows ab
  · have hst : statusText E = bytesOf "[No Name] - 0 lines" := by
      unfold statusText
      rw [hf, hn]
      decide
    have hrt : rstatusText E = bytesOf "1/0" := by
      unfold rstatusText
      rw [hcy, hn]
      decide
    rw [editorDrawStatusBar_eq E ab (by omega) (by rw [hst]; decide) (by rw [hrt]; decide),
      hst, hrt, hc, if_pos (by decide)]
    have e1 : bytesOf "\x1b[7m" = [27, 91, 55, 109] := by decide
    have e2 : bytesOf "\x1b[m" = [27, 91, 109] := by decide
    have e3 : bytesOf "\r\n" = [13, 10] := by decide
    have e4 : ((80 : Int) - ((bytesOf "[No Name] - 0 lines").length : Int)
        - ((bytesOf "1/0").length : Int)).toNat = 58 := by decide
    rw [e1, e2, e3, e4]

theorem C13_empty_document_frame_witness :
    editorDrawStatusBar (initEditor 26 80) [] = some ([] ++ bytesOf "\x1b[7m" ++
      (bytesOf "[No Name] - 0 lines" ++ List.replicate 58 32 ++ bytesOf "1/0") ++
      bytesOf "\x1b[m" ++ bytesOf "\r\n") :=
  (C13_empty_document_frame (initEditor 26 80) [] (by decide) (by decide) (by decide)
    (by decide) (by decide) (by decide)).2.2.2.2.2

/-! ### Terminal restoration -/

/-- When the `tcgetattr` of `enableRawMode` fails, `die` ends the run before
the handler is registered: `disableRawMode` does not run. -/
theorem runMain_tcgetattr_fails (c : Calls) (hget : c.tcgetattrOk = false) :
    runMain c = Ending.exited 1 [Event.die] TermMode.original := by
  unfold runMain
  rw [if_pos hget]
  rfl

/-- When the `tcsetattr` of `enableRawMode` fails, `die` ends the run with the
handler registered and the terminal never made raw. -/
theorem runMain_tcsetattr_fails (c : Calls) (hget : c.tcgetattrOk = true)
    (hset : c.tcsetattrRawOk = false) :
    runMain c =
      if c.restoreOk then
        Ending.exited 1 [Event.die, Event.disableRawMode true] TermMode.original
      else
        Ending.exited 1 [Event.die, Event.disableRawMode false, Event.die]
          TermMode.original := by
  unfold runMain
  rw [if_neg (by rw [hget]; decide), if_pos hset]
  unfold die exitWith
  rw [if_pos rfl]
  rfl

theorem moveCursorSwitch_frame (key : Int) (E E1 : editorConfig)
    (h : moveCursorSwitch key E = some E1) : withoutCursor E1 = withoutCursor E := by
  unfold moveCursorSwitch at h
  split_ifs at h
  all_goals first
    | (cases h; rfl)
    | (simp only [Option.map_eq_some'] at h
       obtain ⟨r, _, rfl⟩ := h
       first
         | rfl
         | (split_ifs <;> rfl))

theorem editorMoveCursor_frame (key : Int) (E E2 : editorConfig)
    (h : editorMoveCursor key E = some E2) : withoutCursor E2 = withoutCursor E := by
  unfold editorMoveCursor at h
  simp only [Option.bind_eq_some, Option.map_eq_some'] at h
  obtain ⟨E1, hsw, len, _, rfl⟩ := h
  rw [← moveCursorSwitch_frame key E E1 hsw]
  split_ifs <;> rfl

theorem moveTimes_frame (key : Int) (n : Nat) :
    ∀ (E E2 : editorConfig), moveTimes key n E = some E2 →
      withoutCursor E2 = withoutCursor E := by
  induction n with
  | zero =>
    intro E E2 h
    simp only [moveTimes, Option.some.injEq] at h
    rw [h]
  | succ k ih =>
    intro E E2 h
    simp only [moveTimes, Option.bind_eq_some] at h
    obtain ⟨E1, h1, h2⟩ := h
    rw [ih E1 E2 h2, editorMoveCursor_frame key E E1 h1]

theorem ofOption_running (o : Option editorConfig) (E2 : editorConfig)
    (h : KeyOutcome.ofOption o = KeyOutcome.running E2) : o = some E2 := by
  cases o with
  | none => cases h
  | some E => cases h; rfl

/-- Handling a key changes nothing but the cursor position `cx`, `cy`. -/
theorem editorProcessKey_frame (c : Int) (E E2 : editorConfig)
    (h : editorProcessKey c E = KeyOutcome.running E2) :
    withoutCursor E2 = withoutCursor E := by
  unfold editorProcessKey at h
  simp only [] at h
  split_ifs at h
  all_goals first
    | (cases h; rfl)
    | (have h1 := ofOption_running _ _ h
       first
         | exact editorMoveCursor_frame _ _ _ h1
         | (have h2 := moveTimes_frame _ _ _ _ h1
            exact h2)
         | (simp only [Option.map_eq_some'] at h1
            obtain ⟨r, _, rfl⟩ := h1
            rfl))

theorem startup_rows (wsRows wsCols : Int) (file : Option (List Byte × List (List Byte)))
    (now : Int) (E : editorConfig) (h : startup wsRows wsCols file now = some E) :
    ∀ r ∈ E.row, ∃ cs, r = renderedRow cs := by
  unfold startup at h
  simp only [Option.map_eq_some'] at h
  obtain ⟨E0, h0, rfl⟩ := h
  cases file with
  | none =>
    simp only [Option.some.injEq] at h0
    subst h0
    intro r hr
    cases hr
  | some f =>
    obtain ⟨name, lines⟩ := f
    simp only [] at h0
    rw [editorOpen_eq] at h0
    cases h0
    intro r hr
    have hr1 : r ∈ ([] : List erow) ++ lines.map fun l => renderedRow (stripped l) := hr
    rw [List.nil_append, List.mem_map] at hr1
    obtain ⟨l, _, rfl⟩ := hr1
    exact ⟨_, rfl⟩

theorem reachable_rows (wsRows wsCols : Int) (file : Option (List Byte × List (List Byte)))
    (now : Int) (E : editorConfig) (h : Reachable wsRows wsCols file now E) :
    ∀ r ∈ E.row, ∃ cs, r = renderedRow cs := by
  induction h with
  | start E h => exact startup_rows wsRows wsCols file now E h
  | pass E E1 E2 c _ hs hk ih =>
    obtain ⟨rx, _, rfl⟩ := editorScroll_some E E1 hs
    have hfr := editorProcessKey_frame c _ E2 hk
    have hrow := row_of_withoutCursor _ E2 hfr
    have hrow1 : E2.row = E.row := hrow
    rw [hrow1]
    exact ih

theorem renderedRow_rx_le (cs : List Byte) (cx : Int) (hcx : cx ≤ (renderedRow cs).size) :
    editorRowCxToRx (renderedRow cs) cx ≤ (renderedRow cs).rsize := by
  rcases le_or_lt cx 0 with hneg | hpos
  · rw [editorRowCxToRx_nonpos _ _ hneg]
    exact Int.ofNat_nonneg _
  · obtain ⟨n, rfl⟩ := Int.eq_ofNat_of_zero_le (le_of_lt hpos)
    have hn : n ≤ cs.length := by
      have : (n : Int) ≤ (cs.length : Int) := hcx
      omega
    obtain ⟨d, hd⟩ := Nat.exists_eq_add_of_le hn
    have hfull : editorRowCxToRx (renderedRow cs) ((cs.length : Nat) : Int)
        = (renderedRow cs).rsize := by
      rw [editorRowCxToRx_eq_take (renderedRow cs) cs.length (le_refl _)]
      show (((expandTabs (cs.take cs.length)).length : Nat) : Int)
        = (((expandTabs cs).length : Nat) : Int)
      rw [List.take_length]
    rw [← hfull, hd]
    exact editorRowCxToRx_mono_nat _ n d

/-- C18: the two tab transforms agree.  For a row (`size` the length of
`chars`) processed by `editorUpdateRow` and every `0 <= cx <= size`, the first
`editorRowCxToRx(row, cx)` bytes of `render` are the rendering of
`chars[0 .. cx)` (the reference expansion, which is also what
`editorUpdateRow` renders for the row cut at `cx`); `rsize` is
`editorRowCxToRx(row, size)`; a byte other than a tab at `cx < size` is found
in `render` at index `editorRowCxToRx(row, cx)`; and the `rx` that
`editorScroll` computes with the cursor at `cx` on this row does not exceed
`rsize`, which holds in particular in every state reachable in the session
loop (on a screen with `screenRows >= 1`) for the row under the cursor. -/
theorem C18_tab_transforms_agree (row row1 : erow) (cx : Int)
    (hs : row.size = row.chars.length) (h1 : editorUpdateRow row = some row1)
    (h0 : 0 ≤ cx) (hcx : cx ≤ row.size) :
    row1.render.take (editorRowCxToRx row1 cx).toNat = expandTabs (row1.chars.take cx.toNat) ∧
    (∃ rp, editorUpdateRow
        { size := cx, rsize := 0, chars := row1.chars.take cx.toNat, render := [] } = some rp ∧
      row1.render.take (editorRowCxToRx row1 cx).toNat = rp.render) ∧
    row1.rsize = editorRowCxToRx row1 row1.size ∧
    editorRowCxToRx row1 cx ≤ row1.rsize ∧
    (∀ b, row1.chars[cx.toNat]? = some b → b ≠ 9 →
      row1.render[(editorRowCxToRx row1 cx).toNat]? = some b) ∧
    (∀ E E1, rowAt E E.cy = some row1 → E.cy < E.numRows → E.cx = cx →
      editorScroll E = some E1 → E1.rx = editorRowCxToRx row1 cx ∧ E1.rx ≤ row1.rsize) ∧
    (∀ (wsRows wsCols : Int) (file : Option (List Byte × List (List Byte))) (now : Int)
        (E E1 : editorConfig), 1 ≤ wsRows - 2 → Reachable wsRows wsCols file now E →
      editorScroll E = some E1 → E.cy < E.numRows →
      ∃ r, rowAt E E.cy = some r ∧ E1.rx = editorRowCxToRx r E.cx ∧ E1.rx ≤ r.rsize) := by
  rw [editorUpdateRow_of_size row hs] at h1
  have hch : row1.chars = row.chars := by rw [← Option.some.inj h1]
  have hrd : row1.render = expandTabs row.chars := by rw [← Option.some.inj h1]
  have hrz : row1.rsize = ((expandTabs row.chars).length : Int) := by rw [← Option.some.inj h1]
  have hsz : row1.size = row.size := by rw [← Option.some.inj h1]
  clear h1
  obtain ⟨n, rfl⟩ := Int.eq_ofNat_of_zero_le h0
  have hn : n ≤ row.chars.length := by omega
  have hrx : ∀ m : Nat, m ≤ row.chars.length →
      editorRowCxToRx row1 (m : Int) = ((expandTabs (row.chars.take m)).length : Int) := by
    intro m hm
    rw [editorRowCxToRx_congr row row1 hch, editorRowCxToRx_eq_take row m hm]
  have hrs : row1.rsize = editorRowCxToRx row1 row1.size := by
    rw [hrz, hsz, hs, hrx _ (le_refl _), List.take_length]
  have hle : editorRowCxToRx row1 (n : Int) ≤ row1.rsize := by
    obtain ⟨d, hd⟩ := Nat.exists_eq_add_of_le hn
    rw [hrs, hsz, hs, hd]
    exact editorRowCxToRx_mono_nat row1 n d
  have htake : row1.render.take (editorRowCxToRx row1 (n : Int)).toNat
      = expandTabs (row.chars.take n) := by
    rw [hrd, hrx n hn, Int.toNat_ofNat, take_expandTabs]
  rw [hch, Int.toNat_ofNat]
  refine ⟨htake, ?_, hrs, hle, ?_, ?_, ?_⟩
  · refine ⟨_, editorUpdateRow_of_size _ ?_, htake⟩
    show (n : Int) = (((row.chars.take n).length : Nat) : Int)
    rw [List.length_take, Nat.min_eq_left hn]
  · intro b hb hne
    have hlt : n < row.chars.length := by
      by_contra hge
      have hnone : row.chars[n]? = none := List.getElem?_eq_none (by omega)
      rw [hnone] at hb
      cases hb
    have htk : row.chars.take (n + 1) = row.chars.take n ++ [b] := by
      rw [List.take_succ, hb]
      rfl
    obtain ⟨t, ht⟩ := expandTabs_take_extends row.chars (n + 1)
    rw [htk, expandTabs_append_singleton, tabStep_other _ b hne] at ht
    rw [hrd, hrx n hn, Int.toNat_ofNat, ht, List.append_assoc,
      List.getElem?_append_right (le_refl _), Nat.sub_self]
    simp
  · intro E E1 hr hlt hc hsc
    obtain ⟨rx, hrx1, rfl⟩ := editorScroll_some E E1 hsc
    rw [scrollRx_of_rowAt E _ hlt hr, hc] at hrx1
    cases hrx1
    exact ⟨rfl, hle⟩
  · intro wsRows wsCols file now E E1 hsr hreach hsc hlt
    obtain ⟨⟨⟨hnum, _, hcy0, _, _⟩, hcxle⟩, _, _⟩ := reachable_inv wsRows wsCols file now E hsr hreach
    obtain ⟨r, hr, hmem⟩ := rowAt_eq_some E E.cy hcy0 (by omega)
    obtain ⟨cs, rfl⟩ := reachable_rows wsRows wsCols file now E hreach r hmem
    rw [cursorRowSize_of_rowAt E _ hr] at hcxle
    obtain ⟨rx, hrx1, rfl⟩ := editorScroll_some E E1 hsc
    rw [scrollRx_of_rowAt E _ hlt hr] at hrx1
    cases hrx1
    exact ⟨_, hr, rfl, renderedRow_rx_le cs E.cx hcxle⟩

theorem C18_tab_transforms_agree_witness :
    List.take (editorRowCxToRx (renderedRow [97, 9, 98]) 2).toNat (renderedRow [97, 9, 98]).render
      = expandTabs [97, 9] ∧
    (renderedRow [97, 9, 98]).rsize = editorRowCxToRx (renderedRow [97, 9, 98]) 3 ∧
    (renderedRow [97, 9, 98]).render[(editorRowCxToRx (renderedRow [97, 9, 98]) 2).toNat]?
      = some 98 := by
  obtain ⟨h1, _, h3, _, h5, _, _⟩ := C18_tab_transforms_agree
    { size := 3, rsize := 0, chars := [97, 9, 98], render := [] } (renderedRow [97, 9, 98]) 2
    (by decide) (by decide) (by decide) (by decide)
  exact ⟨h1, h3, h5 98 (by decide) (by decide)⟩

/-! ### The render buffer in `int` arithmetic -/

theorem wrapInt_of_range (x : Int) (h1 : -2147483648 ≤ x) (h2 : x ≤ 2147483647) :
    wrapInt x = x := by
  unfold wrapInt
  omega

theorem tabsFold32_eq (row : erow) (n : Nat) (hn : (n : Int) ≤ 2147483647) :
    (List.range n).foldl
        (fun (tabs : Int) j => if row.charAt j = 9 then wrapInt (tabs + 1) else tabs) 0
      = (List.range n).foldl
        (fun (tabs : Int) j => if row.charAt j = 9 then tabs + 1 else tabs) 0 := by
  induction n with
  | zero => rfl
  | succ k ih =>
    have hk : (k : Int) ≤ 2147483647 := by push_cast at hn; omega
    have hc := tabsFold_eq_count row k
    have hle : (row.firstBytes k).count 9 ≤ k := by
      have h := List.count_le_length (9 : Byte) (row.firstBytes k)
      rwa [firstBytes_len] at h
    rw [List.range_succ, List.foldl_append, List.foldl_append, ih hk, hc]
    simp only [List.foldl_cons, List.foldl_nil]
    split_ifs
    · apply wrapInt_of_range
      · omega
      · push_cast at hn
        omega
    · rfl

theorem countTabs32_eq (row : erow) (h : row.size ≤ INT_MAX) :
    countTabs32 row = countTabs row := by
  unfold INT_MAX at h
  exact tabsFold32_eq row row.size.toNat (by omega)

theorem storeByte_some (buf buf1 : List Byte) (idx : Int) (b : Byte)
    (h : storeByte buf idx b = some buf1) :
    0 ≤ idx ∧ idx < buf.length ∧ buf1.length = buf.length := by
  unfold storeByte at h
  split_ifs at h with hc
  cases h
  exact ⟨hc.1, hc.2, List.length_set _ _ _⟩

theorem padToTabStop_length :
    ∀ (fuel : Nat) (buf : List Byte) (idx : Int) (p : List Byte × Int),
      padToTabStop fuel buf idx = some p → p.1.length = buf.length := by
  intro fuel
  induction fuel with
  | zero => intro buf idx p h; cases h
  | succ k ih =>
    intro buf idx p h
    unfold padToTabStop at h
    split_ifs at h with hc
    · cases hs : storeByte buf idx 32 with
      | none => rw [hs] at h; cases h
      | some buf1 =>
        rw [hs] at h
        have h1 := ih buf1 (idx + 1) p h
        rw [h1, (storeByte_some _ _ _ _ hs).2.2]
    · cases h
      rfl

theorem expandStep_length (row : erow) (st st1 : List Byte × Int) (j : Nat)
    (h : expandStep row st j = some st1) : st1.1.length = st.1.length := by
  unfold expandStep at h
  split_ifs at h with hc
  · cases hs : storeByte st.1 st.2 32 with
    | none => rw [hs] at h; cases h
    | some buf1 =>
      rw [hs] at h
      have h1 := padToTabStop_length 8 buf1 (st.2 + 1) st1 h
      rw [h1, (storeByte_some _ _ _ _ hs).2.2]
  · cases hs : storeByte st.1 st.2 (row.charAt j) with
    | none => rw [hs] at h; cases h
    | some buf1 =>
      rw [hs] at h
      cases h
      exact (storeByte_some _ _ _ _ hs).2.2

theorem padToTabStop32_eq :
    ∀ (fuel : Nat) (buf : List Byte) (idx : Int), (buf.length : Int) ≤ INT_MAX →
      padToTabStop32 fuel buf idx = padToTabStop fuel buf idx := by
  intro fuel
  induction fuel with
  | zero => intro buf idx _; rfl
  | succ k ih =>
    intro buf idx hlen
    unfold padToTabStop32 padToTabStop
    split_ifs with hc
    · cases hs : storeByte buf idx 32 with
      | none => rfl
      | some buf1 =>
        obtain ⟨h0, h1, h2⟩ := storeByte_some _ _ _ _ hs
        unfold INT_MAX at hlen
        have hw : wrapInt (idx + 1) = idx + 1 := wrapInt_of_range _ (by omega) (by omega)
        simp only [Option.some_bind, hw]
        exact ih buf1 (idx + 1) (by rw [h2]; exact hlen)
    · rfl

theorem expandStep32_eq (row : erow) (st : List Byte × Int) (j : Nat)
    (hlen : (st.1.length : Int) ≤ INT_MAX) :
    expandStep32 row st j = expandStep row st j := by
  unfold expandStep32 expandStep
  split_ifs with hc
  · cases hs : storeByte st.1 st.2 32 with
    | none => rfl
    | some buf1 =>
      obtain ⟨h0, h1, h2⟩ := storeByte_some _ _ _ _ hs
      have hl := hlen
      unfold INT_MAX at hl
      have hw : wrapInt (st.2 + 1) = st.2 + 1 := wrapInt_of_range _ (by omega) (by omega)
      simp only [Option.some_bind, hw]
      exact padToTabStop32_eq 8 buf1 (st.2 + 1) (by rw [h2]; exact hlen)
  · cases hs : storeByte st.1 st.2 (row.charAt j) with
    | none => rfl
    | some buf1 =>
      obtain ⟨h0, h1, h2⟩ := storeByte_some _ _ _ _ hs
      have hl := hlen
      unfold INT_MAX at hl
      have hw : wrapInt (st.2 + 1) = st.2 + 1 := wrapInt_of_range _ (by omega) (by omega)
      simp only [Option.map_some', hw]

theorem expandLoop32_eq (row : erow) (l : List Nat) :
    ∀ st : List Byte × Int, (st.1.length : Int) ≤ INT_MAX →
      List.foldlM (expandStep32 row) st l = List.foldlM (expandStep row) st l := by
  induction l with
  | nil => intro st _; rfl
  | cons j l ih =>
    intro st hlen
    rw [List.foldlM_cons, List.foldlM_cons, expandStep32_eq row st j hlen]
    cases hs : expandStep row st j with
    | none => rfl
    | some st1 =>
      simp only [Option.bind_eq_bind, Option.some_bind]
      exact ih st1 (by rw [expandStep_length row st st1 j hs]; exact hlen)

/-- Within `int` the machine arithmetic of `editorUpdateRow` is exact: on a row
with `size + 7 * tabs + 1 <= INT_MAX` nothing wraps. -/
theorem editorUpdateRow32_eq (row : erow) (h0 : 0 ≤ row.size)
    (hfit : row.size + 7 * countTabs row + 1 ≤ INT_MAX) :
    countTabs32 row = countTabs row ∧
    wrapInt (wrapInt (row.size + wrapInt (countTabs32 row * (KILO_TAB_STOP - 1))) + 1)
      = row.size + 7 * countTabs row + 1 ∧
    editorUpdateRow32 row = editorUpdateRow row := by
  have hct := countTabs_eq_count row
  have hfit1 := hfit
  unfold INT_MAX at hfit1
  have ht : countTabs32 row = countTabs row := countTabs32_eq row (by unfold INT_MAX; omega)
  have hcap : wrapInt (wrapInt (row.size + wrapInt (countTabs32 row * (KILO_TAB_STOP - 1))) + 1)
      = row.size + countTabs row * (KILO_TAB_STOP - 1) + 1 := by
    rw [ht]
    unfold KILO_TAB_STOP
    rw [wrapInt_of_range (countTabs row * (8 - 1)) (by omega) (by omega),
      wrapInt_of_range (row.size + countTabs row * (8 - 1)) (by omega) (by omega),
      wrapInt_of_range (row.size + countTabs row * (8 - 1) + 1) (by omega) (by omega)]
  refine ⟨ht, by rw [hcap]; unfold KILO_TAB_STOP; omega, ?_⟩
  unfold editorUpdateRow32 editorUpdateRow
  simp only []
  rw [hcap]
  have hm : mallocRender (row.size + countTabs row * (KILO_TAB_STOP - 1) + 1)
      = List.replicate (row.size + countTabs row * (KILO_TAB_STOP - 1) + 1).toNat 0 := by
    unfold mallocRender
    rw [if_neg]
    unfold KILO_TAB_STOP
    omega
  rw [hm, expandLoop32_eq row _ _ (by
    rw [List.length_replicate]
    unfold INT_MAX KILO_TAB_STOP
    show (((row.size + countTabs row * (8 - 1) + 1).toNat : Nat) : Int) ≤ 2147483647
    omega)]

theorem tabRow_chars_length (n : Nat) : (tabRow n).size = ((tabRow n).chars.length : Int) := by
  show (n : Int) = (((List.replicate n (9 : Byte)).length : Nat) : Int)
  rw [List.length_replicate]

theorem countTabs_tabRow (n : Nat) : countTabs (tabRow n) = (n : Int) := by
  have hl : (tabRow n).chars.length = n := List.length_replicate n (9 : Byte)
  have hs : (tabRow n).size.toNat = (tabRow n).chars.length := by
    rw [hl]
    exact Int.toNat_ofNat n
  rw [countTabs_eq_count, hs, firstBytes_length]
  show (((List.replicate n (9 : Byte)).count 9 : Nat) : Int) = n
  rw [List.count_replicate_self]

theorem countTabs32_tabRow (n : Nat) (h : (n : Int) ≤ INT_MAX) :
    countTabs32 (tabRow n) = (n : Int) := by
  rw [countTabs32_eq (tabRow n) h, countTabs_tabRow]

theorem foldl_tabStep_tabs_length (n : Nat) :
    ∀ out : List Byte, out.length % 8 = 0 →
      ((List.replicate n (9 : Byte)).foldl tabStep out).length = out.length + 8 * n := by
  induction n with
  | zero => intro out _; rfl
  | succ k ih =>
    intro out h
    have hl := tabStep_length out 9
    rw [if_pos rfl] at hl
    rw [List.replicate_succ, List.foldl_cons, ih (tabStep out 9) (by omega), hl]
    omega

/-- With exact arithmetic a row of `n` tabs renders as `8 * n` spaces. -/
theorem editorUpdateRow_tabRow_rsize (n : Nat) :
    ∃ row1, editorUpdateRow (tabRow n) = some row1 ∧ row1.rsize = 8 * (n : Int) := by
  refine ⟨_, editorUpdateRow_of_size (tabRow n) (tabRow_chars_length n), ?_⟩
  show (((expandTabs (List.replicate n (9 : Byte))).length : Nat) : Int) = 8 * (n : Int)
  unfold expandTabs
  rw [foldl_tabStep_tabs_length n [] rfl]
  simp

/-- A request of no byte or of a negative number of bytes leaves no room for
the first store: on a row with `size >= 1` the first pass of the expansion loop
stores outside the buffer. -/
theorem editorUpdateRow32_no_room (row : erow) (h1 : 1 ≤ row.size)
    (hcap : wrapInt (wrapInt (row.size + wrapInt (countTabs32 row * (KILO_TAB_STOP - 1))) + 1)
      ≤ 0) :
    mallocRender
        (wrapInt (wrapInt (row.size + wrapInt (countTabs32 row * (KILO_TAB_STOP - 1))) + 1))
      = [] ∧
    (∀ b, storeByte
      (mallocRender
        (wrapInt (wrapInt (row.size + wrapInt (countTabs32 row * (KILO_TAB_STOP - 1))) + 1)))
      0 b = none) ∧
    editorUpdateRow32 row = none := by
  have hm : mallocRender
      (wrapInt (wrapInt (row.size + wrapInt (countTabs32 row * (KILO_TAB_STOP - 1))) + 1))
      = [] := by
    unfold mallocRender
    split_ifs with hn
    · rfl
    · have hz : (wrapInt (wrapInt (row.size + wrapInt (countTabs32 row * (KILO_TAB_STOP - 1)))
          + 1)).toNat = 0 := by omega
      rw [hz]
      rfl
  have hst : ∀ b : Byte, storeByte [] 0 b = none := fun b => rfl
  refine ⟨hm, fun b => by rw [hm]; exact hst b, ?_⟩
  obtain ⟨m, hmn⟩ : ∃ m : Nat, row.size.toNat = m + 1 := ⟨row.size.toNat - 1, by omega⟩
  have hstep : expandStep32 row ([], 0) 0 = none := by
    unfold expandStep32
    split_ifs
    · show (storeByte [] 0 32).bind _ = none
      rw [hst]
      rfl
    · show (storeByte [] 0 (row.charAt 0)).map _ = none
      rw [hst]
      rfl
  unfold editorUpdateRow32
  simp only []
  rw [hm, hmn, List.range_succ_eq_map, List.foldlM_cons, hstep]
  rfl

/-- C20: the buffer that `editorUpdateRow` allocates is not large enough for
every row.  The source computes `row->size + tabs*(KILO_TAB_STOP - 1) + 1` in
`int`.  On the row `tabFlood` of 268435456 tab bytes, a line that
`getline` and `editorAppendRow` accept, the exact value is 2147483649, above
`INT_MAX`; the `int` holds -2147483647, `malloc` grants no buffer for it, and
the store `render[0] = ' '` of the first pass is outside the buffer (the model
of the 32-bit code returns `none`), where exact arithmetic would need a buffer
of 2147483649 bytes and an `rsize` of 2147483648, which no `int` holds.  On
every row with `size + 7 * tabs + 1 <= INT_MAX` nothing wraps: the buffer has
`size + 7 * tabs + 1` bytes, the loop completes with every store inside it,
the index of the NUL is inside it and `rsize <= size + 7 * tabs`. -/
theorem C20_render_buffer_overflows :
    (tabFlood.size = 268435456 ∧ tabFlood.size = (tabFlood.chars.length : Int) ∧
      tabFlood.chars = List.replicate 268435456 9 ∧ tabFlood.size ≤ INT_MAX) ∧
    countTabs32 tabFlood = 268435456 ∧
    wrapInt (countTabs32 tabFlood * (KILO_TAB_STOP - 1)) = 1879048192 ∧
    tabFlood.size + countTabs32 tabFlood * (KILO_TAB_STOP - 1) + 1 = 2147483649 ∧
    INT_MAX < tabFlood.size + countTabs32 tabFlood * (KILO_TAB_STOP - 1) + 1 ∧
    wrapInt (tabFlood.size + wrapInt (countTabs32 tabFlood * (KILO_TAB_STOP - 1)))
      = -2147483648 ∧
    wrapInt (wrapInt (tabFlood.size + wrapInt (countTabs32 tabFlood * (KILO_TAB_STOP - 1))) + 1)
      = -2147483647 ∧
    mallocRender
      (wrapInt (wrapInt (tabFlood.size + wrapInt (countTabs32 tabFlood * (KILO_TAB_STOP - 1)))
        + 1)) = [] ∧
    tabFlood.charAt 0 = 9 ∧
    storeByte
      (mallocRender
        (wrapInt (wrapInt (tabFlood.size + wrapInt (countTabs32 tabFlood * (KILO_TAB_STOP - 1)))
          + 1))) 0 32 = none ∧
    editorUpdateRow32 tabFlood = none ∧
    (∃ row1, editorUpdateRow tabFlood = some row1 ∧ row1.rsize = 2147483648 ∧
      INT_MAX < row1.rsize) ∧
    (∀ row : erow, 0 ≤ row.size → row.size + 7 * countTabs row + 1 ≤ INT_MAX →
      countTabs32 row = countTabs row ∧
      wrapInt (wrapInt (row.size + wrapInt (countTabs32 row * (KILO_TAB_STOP - 1))) + 1)
        = row.size + 7 * countTabs row + 1 ∧
      ∃ buf idx,
        List.foldlM (expandStep32 row)
          (mallocRender
            (wrapInt (wrapInt (row.size + wrapInt (countTabs32 row * (KILO_TAB_STOP - 1))) + 1)),
            (0 : Int))
          (List.range row.size.toNat) = some (buf, idx) ∧
        (buf.length : Int) = row.size + 7 * countTabs row + 1 ∧
        0 ≤ idx ∧ idx < row.size + 7 * countTabs row + 1 ∧
        (storeByte buf idx 0).isSome = true ∧
        ∃ row1, editorUpdateRow32 row = some row1 ∧ row1.rsize = idx ∧
          row1.rsize ≤ row.size + 7 * countTabs row ∧ row1.rsize ≤ INT_MAX) := by
  have hsz : tabFlood.size = 268435456 := rfl
  have hmax : tabFlood.size ≤ INT_MAX := by rw [hsz]; decide
  have ht : countTabs32 tabFlood = 268435456 := countTabs32_tabRow 268435456 hmax
  have h7 : wrapInt (countTabs32 tabFlood * (KILO_TAB_STOP - 1)) = 1879048192 := by
    rw [ht]; decide
  have hsum : wrapInt (tabFlood.size + wrapInt (countTabs32 tabFlood * (KILO_TAB_STOP - 1)))
      = -2147483648 := by
    rw [h7, hsz]; decide
  have hcap : wrapInt
      (wrapInt (tabFlood.size + wrapInt (countTabs32 tabFlood * (KILO_TAB_STOP - 1))) + 1)
      = -2147483647 := by
    rw [hsum]; decide
  have hroom := editorUpdateRow32_no_room tabFlood (by rw [hsz]; decide) (by rw [hcap]; decide)
  refine ⟨⟨hsz, tabRow_chars_length 268435456, rfl, hmax⟩, ht, h7, by rw [ht, hsz]; decide,
    by rw [ht, hsz]; decide, hsum, hcap, hroom.1, ?_, hroom.2.1 32, hroom.2.2, ?_, ?_⟩
  · show (List.replicate (268435455 + 1) (9 : Byte)).getD 0 0 = 9
    rw [List.replicate_succ]
    rfl
  · obtain ⟨row1, hr, hrs⟩ := editorUpdateRow_tabRow_rsize 268435456
    have h8 : row1.rsize = 2147483648 := by rw [hrs]; decide
    exact ⟨row1, hr, h8, by rw [h8]; decide⟩
  · intro row h0 hfit
    obtain ⟨h1, h2, h3⟩ := editorUpdateRow32_eq row h0 hfit
    obtain ⟨⟨buf, idx, hl, hlen, hi0, hi1, hst, row1, hr, hri, hrle⟩, _, _⟩ :=
      editorUpdateRow_buffer_bound row h0
    have hm : mallocRender (row.size + 7 * countTabs row + 1)
        = List.replicate (row.size + countTabs row * (KILO_TAB_STOP - 1) + 1).toNat 0 := by
      have e : row.size + 7 * countTabs row + 1
          = row.size + countTabs row * (KILO_TAB_STOP - 1) + 1 := by
        unfold KILO_TAB_STOP
        omega
      rw [e]
      unfold mallocRender
      rw [if_neg]
      have := countTabs_eq_count row
      omega
    have hlen0 : ((mallocRender (row.size + 7 * countTabs row + 1)).length : Int) ≤ INT_MAX := by
      rw [hm, List.length_replicate]
      unfold KILO_TAB_STOP
      have := countTabs_eq_count row
      omega
    refine ⟨h1, h2, buf, idx, ?_, hlen, hi0, hi1, hst, row1, by rw [h3]; exact hr, hri, hrle, ?_⟩
    · rw [h2, expandLoop32_eq row _ _ hlen0, hm]
      exact hl
    · omega

end Kilo
